import Mathlib

/-!
Timer-Demo: the two timer engines.

A shallow embedding of `HeapTimer.cpp` (binary min-heap stored in a `vector<TimerNode>`) and of
`timer.cpp` (a `set<TimerNode, less<>>` ordered by `operator<` on `NodeBase`).

Conventions of the embedding

* `time_t`, `int64_t` and `int` values are integers (`Int`). The operations come in two layers.
  The exact layer (`addTimer`, `checkTimer`, `timeToSleep`) computes sums and differences exactly;
  it carries the claims on structure (order, multisets, ids, termination). The fixed-width layer
  (`addTimerW`, `checkTimerW`, `timeToSleepW`) is the same code with every `time_t` and `int64_t`
  result wrapped to 64 bits and every `int` result to 32 bits, as the compiled code does; it
  carries the claims on computed values. The two layers agree wherever no result leaves its
  range (`addTimerW_eq_addTimer`, `checkTimerW_eq_checkTimer`, `timeToSleepW_eq_timeToSleep`,
  `set_timeToSleepW_eq_timeToSleep`).
* `getTick()` is a parameter `now` of every operation that reads the clock.
* A `std::function` callback is a handle of type `Callback`; a callback never touches the store.
  Every operation that can invoke callbacks returns the list of invocations (the node snapshot each
  callback received).
* The static counter `g_id` is a field of the store.
* `vector<TimerNode>` is a `List`; `timer[i]` is `nodeAt timer i`.
* `while` loops are recursive functions on a fuel argument that is provably large enough.
* Vector accesses outside the vector read a default node; a second copy of the heap engine with
  checked accesses shows that no operation makes such an access.
-/

set_option autoImplicit false

/-- Callback handles. `user n` is a callable supplied by the caller of `addTimer`;
`checkTimerLambda` is the closure that `Timer::checkTimer` (timer.cpp, lines 123-125) creates
itself when it re-adds a repeating timer. -/
inductive Callback where
  | user (tag : Nat)
  | checkTimerLambda
  deriving DecidableEq, Repr

/-- The `struct NodeBase` of both files. -/
structure NodeBase where
  expire : Int
  id : Int
  deriving DecidableEq, Repr

/-- The `struct TimerNode` of HeapTimer.cpp (lines 32-60). -/
structure HeapTimer.TimerNode extends NodeBase where
  func : Callback
  «repeat» : Int
  msec : Int
  deriving DecidableEq, Repr

/-- The `class HeapTimer`: the entry vector and the static id counter. -/
structure HeapTimer where
  timer : List HeapTimer.TimerNode
  g_id : Int
  deriving DecidableEq, Repr

namespace HeapTimer

/-- The value an access outside the vector reads in this embedding. -/
def dflt : TimerNode := ⟨⟨0, 0⟩, Callback.user 0, 0, 0⟩

/-- The access `timer[i]`. -/
def nodeAt (timer : List TimerNode) (i : Nat) : TimerNode := timer.getD i dflt

/-- The three-assignment exchange `temp = timer[a]; timer[a] = timer[b]; timer[b] = temp`. -/
def swapAt (timer : List TimerNode) (a b : Nat) : List TimerNode :=
  (timer.set a (nodeAt timer b)).set b (nodeAt timer a)

/-- The `while (son > 0)` loop of `siftUp` (lines 98-112); `parent` is recomputed from `son`
exactly as lines 96 and 110 do. -/
def siftUpLoop : Nat → List TimerNode → Nat → List TimerNode
  | 0, timer, _ => timer
  | fuel + 1, timer, son =>
    if 0 < son then
      let parent := (son - 1) / 2
      if (nodeAt timer parent).expire < (nodeAt timer son).expire then timer
      else siftUpLoop fuel (swapAt timer son parent) parent
    else timer

/-- The member function `HeapTimer::siftUp(start)` (lines 95-113). -/
def siftUp (timer : List TimerNode) (start : Nat) : List TimerNode :=
  siftUpLoop start timer start

/-- The `while (son <= end)` loop of `siftDown` (lines 124-144). -/
def siftDownLoop : Nat → List TimerNode → Nat → Nat → Nat → List TimerNode
  | 0, timer, _, _, _ => timer
  | fuel + 1, timer, parent, son, «end» =>
    if son ≤ «end» then
      let son1 :=
        if son < «end» ∧ (nodeAt timer (son + 1)).expire < (nodeAt timer son).expire
        then son + 1 else son
      if (nodeAt timer son1).expire > (nodeAt timer parent).expire then timer
      else siftDownLoop fuel (swapAt timer parent son1) son1 (2 * son1 + 1) «end»
    else timer

/-- The member function `HeapTimer::siftDown(start, end)` (lines 120-145). -/
def siftDown (timer : List TimerNode) (start «end» : Nat) : List TimerNode :=
  siftDownLoop («end» + 1) timer start (2 * start + 1) «end»

/-- The member function `HeapTimer::addTimer` (lines 160-167) in the exact layer; returns the id
and the new store. `addTimerW` is the same with the 64-bit sum. -/
def addTimer (self : HeapTimer) (now msec : Int) (func : Callback) («repeat» : Int) :
    Int × HeapTimer :=
  let expire := now + msec
  let timer_id := self.g_id
  let node : TimerNode := ⟨⟨expire, timer_id⟩, func, «repeat», msec⟩
  let timer := self.timer ++ [node]
  (timer_id, ⟨siftUp timer (timer.length - 1), self.g_id + 1⟩)

/-- The `for` loop of `delTimer` (lines 176-186): the vector after the loop, started at index `i`.
The bound `timer.size()` is read again at every iteration, and the loop does not stop at a
match. -/
def delTimerLoop : Nat → List TimerNode → Nat → Int → List TimerNode
  | 0, timer, _, _ => timer
  | fuel + 1, timer, i, timer_id =>
    if i < timer.length then
      if (nodeAt timer i).id = timer_id then
        let t1 := timer.set i (nodeAt timer (timer.length - 1))
        let t2 := siftDown t1 i (t1.length - 1)
        delTimerLoop fuel t2.dropLast (i + 1) timer_id
      else delTimerLoop fuel timer (i + 1) timer_id
    else timer

/-- The member function `HeapTimer::delTimer` (lines 175-188): the returned `bool` and the new store. -/
def delTimer (self : HeapTimer) (timer_id : Int) : Bool × HeapTimer :=
  (false, ⟨delTimerLoop self.timer.length self.timer 0 timer_id, self.g_id⟩)

/-- What one call of `checkTimer` produces: the returned `bool`, the new store and the callback
invocations, each with the node the callback received. -/
structure CheckResult where
  ret : Bool
  store : HeapTimer
  calls : List TimerNode
  deriving DecidableEq, Repr

/-- The member function `HeapTimer::checkTimer` (lines 193-211) in the exact layer. `checkTimerW`
is the same with the 32-bit decrement and the 64-bit sum. -/
def checkTimer (self : HeapTimer) (now : Int) : CheckResult :=
  match self.timer with
  | [] => ⟨false, self, []⟩
  | root :: rest =>
    if root.expire ≤ now then
      let root1 : TimerNode := { root with «repeat» := root.«repeat» - 1 }
      if root1.«repeat» = 0 then
        ⟨true, (delTimer ⟨root1 :: rest, self.g_id⟩ root1.id).2, [root]⟩
      else
        let root2 : TimerNode := { root1 with expire := root1.expire + root1.msec }
        let timer := root2 :: rest
        ⟨true, ⟨siftDown timer 0 (timer.length - 1), self.g_id⟩, [root]⟩
    else ⟨false, self, []⟩

/-- The member function `HeapTimer::timeToSleep` (lines 217-225) in the exact layer.
`timeToSleepW` is the same with the 64-bit difference. -/
def timeToSleep (self : HeapTimer) (now : Int) : Int :=
  match self.timer with
  | [] => 3000
  | root :: _ =>
    let diss := root.expire - now
    if diss > 0 then diss else 0

/-- A freshly constructed `HeapTimer` in a fresh process (`g_id = 0`, line 88). -/
def empty : HeapTimer := ⟨[], 0⟩

/-- The min-heap property of the entry vector: every non-root index has a parent at
`(i - 1) / 2` whose expire is not larger. -/
def isHeap (timer : List TimerNode) : Prop :=
  ∀ i, i < timer.length → 0 < i → (nodeAt timer ((i - 1) / 2)).expire ≤ (nodeAt timer i).expire

instance (timer : List TimerNode) : Decidable (isHeap timer) := by
  unfold isHeap; infer_instance

/-- One call of the public interface. -/
inductive Op where
  | add (now msec : Int) (func : Callback) («repeat» : Int)
  | del (timer_id : Int)
  | check (now : Int)
  deriving DecidableEq, Repr

/-- The clock reading of a call, when it reads the clock. -/
def Op.tick : Op → Option Int
  | Op.add now _ _ _ => some now
  | Op.del _ => none
  | Op.check now => some now

/-- The store after one call. -/
def step (s : HeapTimer) : Op → HeapTimer
  | Op.add now msec func r => (addTimer s now msec func r).2
  | Op.del timer_id => (delTimer s timer_id).2
  | Op.check now => (checkTimer s now).store

/-- The store after a sequence of calls. -/
def run (s : HeapTimer) (ops : List Op) : HeapTimer := ops.foldl step s

/-- The clock readings of a sequence of calls, in call order. -/
def ticks (ops : List Op) : List Int := ops.filterMap Op.tick

end HeapTimer

/-- The `operator<` on `NodeBase` of timer.cpp (lines 48-54). -/
def operatorLt (lhd rhd : NodeBase) : Bool :=
  if lhd.expire < rhd.expire then true
  else if lhd.expire > rhd.expire then false
  else decide (lhd.id < rhd.id)

/-- The `struct TimerNode` of timer.cpp (lines 31-42); it has no `msec` field. -/
structure Timer.TimerNode extends NodeBase where
  func : Callback
  «repeat» : Int
  deriving DecidableEq, Repr

/-- The `class Timer` of timer.cpp: the elements of the `set<TimerNode, less<>>` in iteration
order (ascending for `operator<`) and the static id counter. -/
structure Timer where
  timer : List Timer.TimerNode
  g_id : Int
  deriving DecidableEq, Repr

namespace Timer

/-- What `set::emplace` returns, with the new element list: `pos` is the position of the
element the returned iterator points to, `inserted` the returned `bool`. -/
structure EmplaceResult where
  elems : List TimerNode
  pos : Nat
  inserted : Bool
  deriving DecidableEq, Repr

/-- The `set::emplace` of a node: it is placed before the first element it is less than; an
element equivalent to it (neither less than the other) blocks the insertion. -/
def setEmplace (x : TimerNode) : List TimerNode → EmplaceResult
  | [] => ⟨[x], 0, true⟩
  | y :: ys =>
    if operatorLt x.toNodeBase y.toNodeBase then ⟨x :: y :: ys, 0, true⟩
    else if operatorLt y.toNodeBase x.toNodeBase then
      let r := setEmplace x ys
      ⟨y :: r.elems, r.pos + 1, r.inserted⟩
    else ⟨y :: ys, 0, false⟩

/-- The `set::find` with the transparent comparator `less<>`: the position of the element
equivalent to `key`, `none` for `end()`. -/
def setFind (key : NodeBase) : List TimerNode → Option Nat
  | [] => none
  | y :: ys =>
    if operatorLt y.toNodeBase key then (setFind key ys).map (· + 1)
    else if operatorLt key y.toNodeBase then none
    else some 0

/-- The member function `Timer::addTimer` (lines 94-99): the returned `NodeBase` (the base of `*element.first`) and
the new store. -/
def addTimer (self : Timer) (now msec : Int) (func : Callback) («repeat» : Int) :
    NodeBase × Timer :=
  let expire := now + msec
  let element := setEmplace ⟨⟨expire, self.g_id⟩, func, «repeat»⟩ self.timer
  (match element.elems.get? element.pos with
    | some e => e.toNodeBase
    | none => ⟨expire, self.g_id⟩,
   ⟨element.elems, self.g_id + 1⟩)

/-- The member function `Timer::delTimer` (lines 105-112). -/
def delTimer (self : Timer) (node : NodeBase) : Bool × Timer :=
  match setFind node self.timer with
  | some iter => (true, ⟨self.timer.eraseIdx iter, self.g_id⟩)
  | none => (false, self)

/-- What one call of `Timer::checkTimer` produces. -/
structure CheckResult where
  ret : Bool
  store : Timer
  calls : List TimerNode
  deriving DecidableEq, Repr

/-- The member function `Timer::checkTimer` (lines 118-131). `now` is the clock reading of line 120, `now2` the one
taken by the nested `addTimer` (line 95). `iter` stays on the first element of the old set: its
position after the nested `emplace` is 1 when the new element was inserted in front of it, and 0
otherwise. -/
def checkTimer (self : Timer) (now now2 : Int) : CheckResult :=
  match self.timer with
  | [] => ⟨false, self, []⟩
  | first :: _ =>
    if first.expire ≤ now then
      if first.«repeat» ≠ 1 then
        let element := setEmplace
          ⟨⟨now2 + 1000, self.g_id⟩, Callback.checkTimerLambda, first.«repeat» - 1⟩ self.timer
        let iter := if element.inserted ∧ element.pos = 0 then 1 else 0
        ⟨true, ⟨element.elems.eraseIdx iter, self.g_id + 1⟩, [first]⟩
      else ⟨true, ⟨self.timer.eraseIdx 0, self.g_id⟩, [first]⟩
    else ⟨false, self, []⟩

/-- The member function `Timer::timeToSleep` (lines 136-144) in the exact layer.
`Timer.timeToSleepW` is the same with the 64-bit difference. -/
def timeToSleep (self : Timer) (now : Int) : Int :=
  match self.timer with
  | [] => 3000
  | first :: _ =>
    let diss := first.expire - now
    if diss > 0 then diss else 0

/-- A freshly constructed `Timer` in a fresh process (`g_id = 0`, line 76). -/
def empty : Timer := ⟨[], 0⟩

/-- The representation invariant of the `set`: the elements are strictly ascending for
`operator<`. -/
def isSet (timer : List TimerNode) : Prop :=
  timer.Pairwise (fun a b => operatorLt a.toNodeBase b.toNodeBase = true)

instance (timer : List TimerNode) : Decidable (isSet timer) := by
  unfold isSet; infer_instance

end Timer

/-- The value `m` is the least expire among the entries of a heap-engine vector. -/
def HeapTimer.isLeastExpire (timer : List HeapTimer.TimerNode) (m : Int) : Prop :=
  (∃ e ∈ timer, e.expire = m) ∧ ∀ e ∈ timer, m ≤ e.expire

/-- The value `m` is the least expire among the elements of an ordered-set store. -/
def Timer.isLeastExpire (timer : List Timer.TimerNode) (m : Int) : Prop :=
  (∃ e ∈ timer, e.expire = m) ∧ ∀ e ∈ timer, m ≤ e.expire

namespace HeapTimer

/-- The ids of a store are pairwise distinct and below the id counter. -/
def idsOk (s : HeapTimer) : Prop :=
  (s.timer.map (fun x => x.id)).Nodup ∧ ∀ e ∈ s.timer, e.id < s.g_id

end HeapTimer

/-! ## Concrete call sequences used below -/

/-- Seven one-shot timers added at tick 0 with delays 1, 4, 2, 5, 6, 7, 3 (ids 0 to 6), then
`delTimer(3)`, then two `checkTimer` calls at tick 10. -/
def HeapTimer.deleteThenFireOps : List HeapTimer.Op :=
  [.add 0 1 (.user 0) 1, .add 0 4 (.user 1) 1, .add 0 2 (.user 2) 1, .add 0 5 (.user 3) 1,
   .add 0 6 (.user 4) 1, .add 0 7 (.user 5) 1, .add 0 3 (.user 6) 1, .del 3,
   .check 10, .check 10]

/-- Six one-shot timers added at tick 0 with delays 1, 10, 2, 11, 12, 4 (ids 0 to 5), then
`delTimer(3)`. -/
def HeapTimer.interiorDeleteOps : List HeapTimer.Op :=
  [.add 0 1 (.user 0) 1, .add 0 10 (.user 1) 1, .add 0 2 (.user 2) 1, .add 0 11 (.user 3) 1,
   .add 0 12 (.user 4) 1, .add 0 4 (.user 5) 1, .del 3]

/-- The five `addTimer` calls of `main` (HeapTimer.cpp, lines 245-262), all at tick 0: delays
1000, 2000, 3000, 5000, 500 with repeats 1, 2, 1, 1, 2; the ids are 0 to 4. -/
def HeapTimer.mainOps : List HeapTimer.Op :=
  [.add 0 1000 (.user 0) 1, .add 0 2000 (.user 1) 2, .add 0 3000 (.user 2) 1,
   .add 0 5000 (.user 3) 1, .add 0 500 (.user 4) 2]

/-- The store of `main` after its five `addTimer` calls. -/
def HeapTimer.mainStore : HeapTimer := HeapTimer.run HeapTimer.empty HeapTimer.mainOps

namespace HeapTimer

/-- The ids handed out by one call: the id `addTimer` returns. -/
def stepIssued (s : HeapTimer) : Op → List Int
  | Op.add now msec func r => [(addTimer s now msec func r).1]
  | _ => []

/-- The ids handed out by a sequence of calls, in call order. -/
def runIssued : HeapTimer → List Op → List Int
  | _, [] => []
  | s, op :: ops => stepIssued s op ++ runIssued (step s op) ops

end HeapTimer

namespace Timer

/-- One call of the public interface of the ordered-set engine; `check` carries the clock reading
of `checkTimer` and the one of the `addTimer` nested in it. -/
inductive Op where
  | add (now msec : Int) (func : Callback) («repeat» : Int)
  | del (node : NodeBase)
  | check (now now2 : Int)
  deriving DecidableEq, Repr

/-- The store after one call. -/
def step (s : Timer) : Op → Timer
  | Op.add now msec func r => (addTimer s now msec func r).2
  | Op.del node => (delTimer s node).2
  | Op.check now now2 => (checkTimer s now now2).store

/-- The store after a sequence of calls. -/
def run (s : Timer) (ops : List Op) : Timer := ops.foldl step s

/-- The ids handed out by one call: the id in the handle `addTimer` returns, and for a
`checkTimer` that fires an entry with repeat other than 1 the id in the handle of the nested
`addTimer` (lines 123-125). -/
def stepIssued (s : Timer) : Op → List Int
  | Op.add now msec func r => [(addTimer s now msec func r).1.id]
  | Op.del _ => []
  | Op.check now now2 =>
    match s.timer with
    | [] => []
    | first :: _ =>
      if first.expire ≤ now ∧ first.«repeat» ≠ 1 then
        [(addTimer s now2 1000 Callback.checkTimerLambda (first.«repeat» - 1)).1.id]
      else []

/-- The ids handed out by a sequence of calls, in call order. -/
def runIssued : Timer → List Op → List Int
  | _, [] => []
  | s, op :: ops => stepIssued s op ++ runIssued (step s op) ops

/-- The ids of a store are pairwise distinct and below the id counter. -/
def idsOk (s : Timer) : Prop :=
  (s.timer.map (fun x => x.id)).Nodup ∧ ∀ e ∈ s.timer, e.id < s.g_id

end Timer

namespace HeapTimer

/-- The state of the vector during a sift-up at position `k`: the heap order holds at every
position but `k`, and the children of `k` are not below the parent of `k`. -/
def heapExceptUp (t : List TimerNode) (k : Nat) : Prop :=
  (∀ i, i < t.length → 0 < i → i ≠ k →
    (nodeAt t ((i - 1) / 2)).expire ≤ (nodeAt t i).expire) ∧
  (∀ c, c < t.length → 0 < c → (c - 1) / 2 = k → 0 < k →
    (nodeAt t ((k - 1) / 2)).expire ≤ (nodeAt t c).expire)

/-- The state of the vector during a sift-down at position `p`: the heap order holds between
every position and its parent unless the parent is `p`, and the children of `p` are not below
the parent of `p`. -/
def heapExceptDown (t : List TimerNode) (p : Nat) : Prop :=
  (∀ i, i < t.length → 0 < i → (i - 1) / 2 ≠ p →
    (nodeAt t ((i - 1) / 2)).expire ≤ (nodeAt t i).expire) ∧
  (∀ c, c < t.length → 0 < c → (c - 1) / 2 = p → 0 < p →
    (nodeAt t ((p - 1) / 2)).expire ≤ (nodeAt t c).expire)

end HeapTimer

/-- One call of a run that adds only one-shot timers (repeat 1) and never deletes: `check`
carries the clock reading of `checkTimer` and the reading the ordered-set engine would take in
its nested `addTimer`. -/
inductive OneShotOp where
  | add (now msec : Int) (func : Callback)
  | check (now now2 : Int)
  | sleep (now : Int)
  deriving DecidableEq, Repr

/-- What a caller observes of one call: nothing for `addTimer`, the returned `bool` and the
expires of the fired entries for `checkTimer`, the returned value for `timeToSleep`. -/
inductive Obs where
  | added
  | checked (ret : Bool) (fired : List Int)
  | slept (value : Int)
  deriving DecidableEq, Repr

/-- One call on the heap engine: the observation and the new store. -/
def HeapTimer.stepObs (s : HeapTimer) : OneShotOp → Obs × HeapTimer
  | OneShotOp.add now msec func => (Obs.added, (HeapTimer.addTimer s now msec func 1).2)
  | OneShotOp.check now _ =>
    (Obs.checked (HeapTimer.checkTimer s now).ret
      ((HeapTimer.checkTimer s now).calls.map (fun e => e.expire)),
     (HeapTimer.checkTimer s now).store)
  | OneShotOp.sleep now => (Obs.slept (HeapTimer.timeToSleep s now), s)

/-- One call on the ordered-set engine: the observation and the new store. -/
def Timer.stepObs (s : Timer) : OneShotOp → Obs × Timer
  | OneShotOp.add now msec func => (Obs.added, (Timer.addTimer s now msec func 1).2)
  | OneShotOp.check now now2 =>
    (Obs.checked (Timer.checkTimer s now now2).ret
      ((Timer.checkTimer s now now2).calls.map (fun e => e.expire)),
     (Timer.checkTimer s now now2).store)
  | OneShotOp.sleep now => (Obs.slept (Timer.timeToSleep s now), s)

/-- A sequence of calls on the heap engine: the observations in call order and the final
store. -/
def HeapTimer.runObs : HeapTimer → List OneShotOp → List Obs × HeapTimer
  | s, [] => ([], s)
  | s, op :: ops =>
    ((HeapTimer.stepObs s op).1 :: (HeapTimer.runObs (HeapTimer.stepObs s op).2 ops).1,
     (HeapTimer.runObs (HeapTimer.stepObs s op).2 ops).2)

/-- A sequence of calls on the ordered-set engine: the observations in call order and the final
store. -/
def Timer.runObs : Timer → List OneShotOp → List Obs × Timer
  | s, [] => ([], s)
  | s, op :: ops =>
    ((Timer.stepObs s op).1 :: (Timer.runObs (Timer.stepObs s op).2 ops).1,
     (Timer.runObs (Timer.stepObs s op).2 ops).2)

/-- The relation between the two engines along a run of one-shot timers: both stores have
consistent ids and hold only entries with repeat 1, the vector is a heap, the set is ascending,
and the live expires are the same multiset. -/
def oneShotRel (h : HeapTimer) (t : Timer) : Prop :=
  HeapTimer.idsOk h ∧ HeapTimer.isHeap h.timer ∧ (∀ e ∈ h.timer, e.«repeat» = 1) ∧
  Timer.idsOk t ∧ Timer.isSet t.timer ∧ (∀ e ∈ t.timer, e.«repeat» = 1) ∧
  (h.timer.map (fun e => e.expire)).Perm (t.timer.map (fun e => e.expire))

/-! ## The heap engine with checked vector accesses

The same operations once more, with every read and write of a vector element and every
`erase` spelled out: the result is `none` as soon as an index is outside `[0, size)`, `size() - 1`
is taken of an empty vector, or the last slot of an empty vector is erased. -/

namespace HeapTimer

/-- A read of `timer[i]`: `none` outside the vector. -/
def getC (timer : List TimerNode) (i : Nat) : Option TimerNode := timer.get? i

/-- A write `timer[i] = x`: `none` outside the vector. -/
def setC (timer : List TimerNode) (i : Nat) (x : TimerNode) : Option (List TimerNode) :=
  if i < timer.length then some (timer.set i x) else none

/-- The value `timer.size() - 1`: `none` on an empty vector. -/
def lastIndexC (timer : List TimerNode) : Option Nat :=
  if timer.length = 0 then none else some (timer.length - 1)

/-- The call `timer.erase(timer.end() - 1)`: `none` on an empty vector. -/
def eraseLastC (timer : List TimerNode) : Option (List TimerNode) :=
  if timer.length = 0 then none else some timer.dropLast

/-- The exchange `temp = timer[a]; timer[a] = timer[b]; timer[b] = temp` with checked
accesses. -/
def swapAtC (timer : List TimerNode) (a b : Nat) : Option (List TimerNode) :=
  (getC timer a).bind fun temp =>
  (getC timer b).bind fun vb =>
  (setC timer a vb).bind fun t1 =>
  setC t1 b temp

/-- The loop of `siftUp` (lines 98-112) with checked accesses. -/
def siftUpLoopC : Nat → List TimerNode → Nat → Option (List TimerNode)
  | 0, timer, _ => some timer
  | fuel + 1, timer, son =>
    if 0 < son then
      let parent := (son - 1) / 2
      (getC timer parent).bind fun p =>
      (getC timer son).bind fun s =>
      if p.expire < s.expire then some timer
      else (swapAtC timer son parent).bind fun t1 => siftUpLoopC fuel t1 parent
    else some timer

/-- The member function `siftUp` with checked accesses. -/
def siftUpC (timer : List TimerNode) (start : Nat) : Option (List TimerNode) :=
  siftUpLoopC start timer start

/-- The loop of `siftDown` (lines 124-144) with checked accesses; `timer[son + 1]` is read only
when `son < end`, as the `&&` of line 126 does. -/
def siftDownLoopC : Nat → List TimerNode → Nat → Nat → Nat → Option (List TimerNode)
  | 0, timer, _, _, _ => some timer
  | fuel + 1, timer, parent, son, «end» =>
    if son ≤ «end» then
      (if son < «end» then
        (getC timer (son + 1)).bind fun a =>
        (getC timer son).bind fun b =>
        some (if a.expire < b.expire then son + 1 else son)
       else some son).bind fun son1 =>
      (getC timer son1).bind fun s =>
      (getC timer parent).bind fun p =>
      if s.expire > p.expire then some timer
      else (swapAtC timer parent son1).bind fun t1 =>
        siftDownLoopC fuel t1 son1 (2 * son1 + 1) «end»
    else some timer

/-- The member function `siftDown` with checked accesses. -/
def siftDownC (timer : List TimerNode) (start «end» : Nat) : Option (List TimerNode) :=
  siftDownLoopC («end» + 1) timer start (2 * start + 1) «end»

/-- The member function `addTimer` with checked accesses. -/
def addTimerC (self : HeapTimer) (now msec : Int) (func : Callback) («repeat» : Int) :
    Option (Int × HeapTimer) :=
  let expire := now + msec
  let timer_id := self.g_id
  let node : TimerNode := ⟨⟨expire, timer_id⟩, func, «repeat», msec⟩
  let timer := self.timer ++ [node]
  (lastIndexC timer).bind fun last =>
  (siftUpC timer last).bind fun t1 =>
  some (timer_id, ⟨t1, self.g_id + 1⟩)

/-- The loop of `delTimer` (lines 176-186) with checked accesses. -/
def delTimerLoopC : Nat → List TimerNode → Nat → Int → Option (List TimerNode)
  | 0, timer, _, _ => some timer
  | fuel + 1, timer, i, timer_id =>
    if i < timer.length then
      (getC timer i).bind fun x =>
      if x.id = timer_id then
        (getC timer i).bind fun _del_timer =>
        (lastIndexC timer).bind fun last =>
        (getC timer last).bind fun lastNode =>
        (setC timer i lastNode).bind fun t1 =>
        (lastIndexC t1).bind fun last1 =>
        (siftDownC t1 i last1).bind fun t2 =>
        (eraseLastC t2).bind fun t3 =>
        delTimerLoopC fuel t3 (i + 1) timer_id
      else delTimerLoopC fuel timer (i + 1) timer_id
    else some timer

/-- The member function `delTimer` with checked accesses. -/
def delTimerC (self : HeapTimer) (timer_id : Int) : Option (Bool × HeapTimer) :=
  (delTimerLoopC self.timer.length self.timer 0 timer_id).bind fun t =>
  some (false, ⟨t, self.g_id⟩)

/-- The member function `checkTimer` with checked accesses: `iter` is dereferenced only after
`iter != timer.end()`. -/
def checkTimerC (self : HeapTimer) (now : Int) : Option CheckResult :=
  match self.timer with
  | [] => some ⟨false, self, []⟩
  | root :: rest =>
    if root.expire ≤ now then
      let root1 : TimerNode := { root with «repeat» := root.«repeat» - 1 }
      if root1.«repeat» = 0 then
        (delTimerC ⟨root1 :: rest, self.g_id⟩ root1.id).bind fun r =>
        some ⟨true, r.2, [root]⟩
      else
        let root2 : TimerNode := { root1 with expire := root1.expire + root1.msec }
        let timer := root2 :: rest
        (lastIndexC timer).bind fun last =>
        (siftDownC timer 0 last).bind fun t1 =>
        some ⟨true, ⟨t1, self.g_id⟩, [root]⟩
    else some ⟨false, self, []⟩

/-- The member function `timeToSleep` with checked accesses: `iter` is dereferenced only after
`iter == timer.end()` failed. -/
def timeToSleepC (self : HeapTimer) (now : Int) : Option Int :=
  match self.timer with
  | [] => some 3000
  | root :: _ =>
    let diss := root.expire - now
    some (if diss > 0 then diss else 0)

end HeapTimer

namespace HeapTimer

end HeapTimer

/-! ## The fixed-width layer

The operations whose results the claims state as numbers, once more with the arithmetic of the
source types: `time_t` and `int64_t` are 64-bit and `int` is 32-bit two's complement, and a
result outside the range wraps around. -/

/-- The value a 64-bit signed variable (`time_t`, `int64_t`) holds after it was assigned the
integer `x`: `x` itself when `-2^63 ≤ x < 2^63`, and `x` shifted by a multiple of `2^64` into
that range otherwise. -/
def wrap64 (x : Int) : Int :=
  (x + 9223372036854775808) % 18446744073709551616 - 9223372036854775808

/-- The value a 32-bit signed variable (`int`) holds after it was assigned the integer `x`. -/
def wrap32 (x : Int) : Int := (x + 2147483648) % 4294967296 - 2147483648

namespace HeapTimer

/-- The member function `HeapTimer::addTimer` (lines 160-167) with fixed-width arithmetic: the
sum of line 161 is a `time_t`, the increment of `g_id` (line 71) an `int64_t`. -/
def addTimerW (self : HeapTimer) (now msec : Int) (func : Callback) («repeat» : Int) :
    Int × HeapTimer :=
  let expire := wrap64 (now + msec)
  let timer_id := self.g_id
  let node : TimerNode := ⟨⟨expire, timer_id⟩, func, «repeat», msec⟩
  let timer := self.timer ++ [node]
  (timer_id, ⟨siftUp timer (timer.length - 1), wrap64 (self.g_id + 1)⟩)

/-- The member function `HeapTimer::checkTimer` (lines 193-211) with fixed-width arithmetic:
`iter->repeat -= 1` (line 199) is an `int`, `iter->expire += iter->msec` (line 205) a
`time_t`. -/
def checkTimerW (self : HeapTimer) (now : Int) : CheckResult :=
  match self.timer with
  | [] => ⟨false, self, []⟩
  | root :: rest =>
    if root.expire ≤ now then
      let root1 : TimerNode := { root with «repeat» := wrap32 (root.«repeat» - 1) }
      if root1.«repeat» = 0 then
        ⟨true, (delTimer ⟨root1 :: rest, self.g_id⟩ root1.id).2, [root]⟩
      else
        let root2 : TimerNode := { root1 with expire := wrap64 (root1.expire + root1.msec) }
        let timer := root2 :: rest
        ⟨true, ⟨siftDown timer 0 (timer.length - 1), self.g_id⟩, [root]⟩
    else ⟨false, self, []⟩

/-- The member function `HeapTimer::timeToSleep` (lines 217-225) with fixed-width arithmetic:
`diss` (line 223) is a `time_t`. -/
def timeToSleepW (self : HeapTimer) (now : Int) : Int :=
  match self.timer with
  | [] => 3000
  | root :: _ =>
    let diss := wrap64 (root.expire - now)
    if diss > 0 then diss else 0

/-- The store after one call, in the fixed-width layer. -/
def stepW (s : HeapTimer) : Op → HeapTimer
  | Op.add now msec func r => (addTimerW s now msec func r).2
  | Op.del timer_id => (delTimer s timer_id).2
  | Op.check now => (checkTimerW s now).store

/-- The store after a sequence of calls, in the fixed-width layer. -/
def runW (s : HeapTimer) (ops : List Op) : HeapTimer := ops.foldl stepW s

end HeapTimer

/-- The member function `Timer::timeToSleep` (timer.cpp, lines 136-144) with fixed-width
arithmetic: `diss` (line 142) is a `time_t`. -/
def Timer.timeToSleepW (self : Timer) (now : Int) : Int :=
  match self.timer with
  | [] => 3000
  | first :: _ =>
    let diss := wrap64 (first.expire - now)
    if diss > 0 then diss else 0

/-! ## General facts on lists -/

/-- Overwriting position `i` with `a` gives, up to order, `a` and the other elements. -/
theorem set_perm_cons_eraseIdx {α : Type} (a : α) :
    ∀ (l : List α) (i : Nat), i < l.length → (l.set i a).Perm (a :: l.eraseIdx i)
  | [], _, h => by simp at h
  | x :: xs, 0, _ => by simp
  | x :: xs, i + 1, h => by
    have ih := set_perm_cons_eraseIdx a xs i (by simpa using h)
    simp only [List.set_cons_succ, List.eraseIdx_cons_succ]
    exact (List.Perm.cons x ih).trans (List.Perm.swap a x _)

/-- A list is, up to order, its element at `i` and the other elements. -/
theorem getD_cons_eraseIdx_perm {α : Type} (d : α) :
    ∀ (l : List α) (i : Nat), i < l.length → (l.getD i d :: l.eraseIdx i).Perm l
  | [], _, h => by simp at h
  | x :: xs, 0, _ => by simp
  | x :: xs, i + 1, h => by
    have ih := getD_cons_eraseIdx_perm d xs i (by simpa using h)
    simp only [List.getD_cons_succ, List.eraseIdx_cons_succ]
    exact (List.Perm.swap x _ _).trans (List.Perm.cons x ih)

/-- Overwriting position `i` with `x` trades the old element at `i` for `x`. -/
theorem set_getD_perm {α : Type} (d : α) (l : List α) (i : Nat) (x : α) (h : i < l.length) :
    (l.getD i d :: l.set i x).Perm (x :: l) :=
  ((set_perm_cons_eraseIdx x l i h).cons _).trans
    ((List.Perm.swap _ _ _).trans ((getD_cons_eraseIdx_perm d l i h).cons x))

/-- Exchanging two positions of a list permutes it. -/
theorem swap_perm {α : Type} (d : α) :
    ∀ (l : List α) (a b : Nat), a < l.length → b < l.length →
      ((l.set a (l.getD b d)).set b (l.getD a d)).Perm l
  | [], _, _, h, _ => by simp at h
  | x :: xs, 0, 0, _, _ => by simp
  | x :: xs, 0, b + 1, _, hb => by
    simpa using set_getD_perm d xs b x (by simpa using hb)
  | x :: xs, a + 1, 0, ha, _ => by
    simpa using set_getD_perm d xs a x (by simpa using ha)
  | x :: xs, a + 1, b + 1, ha, hb => by
    simpa using swap_perm d xs a b (by simpa using ha) (by simpa using hb)

/-! ## The loops of the heap engine permute the vector -/

namespace HeapTimer

theorem nodeAt_of_lt (t : List TimerNode) (i : Nat) (h : i < t.length) : nodeAt t i = t[i] := by
  simp [nodeAt, List.getD_eq_getElem?_getD, List.getElem?_eq_getElem h]

theorem nodeAt_mem (t : List TimerNode) (i : Nat) (h : i < t.length) : nodeAt t i ∈ t := by
  rw [nodeAt_of_lt t i h]; exact List.getElem_mem h

theorem swapAt_length (t : List TimerNode) (a b : Nat) : (swapAt t a b).length = t.length := by
  simp [swapAt]

theorem swapAt_perm (t : List TimerNode) (a b : Nat) (ha : a < t.length) (hb : b < t.length) :
    (swapAt t a b).Perm t :=
  swap_perm dflt t a b ha hb

/-- What `timer[i]` reads after an exchange of the positions `a` and `b`. -/
theorem nodeAt_swapAt (t : List TimerNode) (a b i : Nat) (ha : a < t.length)
    (hb : b < t.length) :
    nodeAt (swapAt t a b) i
      = if i = b then nodeAt t a else if i = a then nodeAt t b else nodeAt t i := by
  unfold swapAt nodeAt
  simp only [List.getD_eq_getElem?_getD, List.getElem?_set, List.length_set]
  by_cases h1 : i = b
  · subst h1; simp [hb]
  · by_cases h2 : i = a
    · subst h2; simp [h1, ha, Ne.symm h1]
    · simp [h1, h2, Ne.symm h1, Ne.symm h2]

theorem siftUpLoop_perm : ∀ (fuel : Nat) (t : List TimerNode) (son : Nat), son < t.length →
    (siftUpLoop fuel t son).Perm t
  | 0, t, _, _ => List.Perm.refl t
  | fuel + 1, t, son, h => by
    have hp : (son - 1) / 2 < t.length := by omega
    by_cases h0 : 0 < son
    · by_cases hc : (nodeAt t ((son - 1) / 2)).expire < (nodeAt t son).expire
      · simp [siftUpLoop, h0, hc]
      · simp only [siftUpLoop, h0, hc, if_true, if_false]
        exact (siftUpLoop_perm fuel _ _ (by rw [swapAt_length]; exact hp)).trans
          (swapAt_perm t _ _ h hp)
    · simp [siftUpLoop, h0]

theorem siftDownLoop_perm : ∀ (fuel : Nat) (t : List TimerNode) (parent son e : Nat),
    parent < t.length → e < t.length → (siftDownLoop fuel t parent son e).Perm t
  | 0, t, _, _, _, _, _ => List.Perm.refl t
  | fuel + 1, t, parent, son, e, hp, he => by
    unfold siftDownLoop
    by_cases hs : son ≤ e
    · simp only [hs, if_true]
      split_ifs
      · exact List.Perm.refl t
      · exact (siftDownLoop_perm fuel _ _ _ e (by rw [swapAt_length]; omega)
          (by rw [swapAt_length]; exact he)).trans (swapAt_perm t _ _ hp (by omega))
      · exact List.Perm.refl t
      · exact (siftDownLoop_perm fuel _ _ _ e (by rw [swapAt_length]; omega)
          (by rw [swapAt_length]; exact he)).trans (swapAt_perm t _ _ hp (by omega))
    · simp [hs]

theorem siftDown_perm (t : List TimerNode) (start e : Nat) (hs : start < t.length)
    (he : e < t.length) : (siftDown t start e).Perm t :=
  siftDownLoop_perm _ t start _ e hs he

theorem siftUp_perm (t : List TimerNode) (start : Nat) (hs : start < t.length) :
    (siftUp t start).Perm t :=
  siftUpLoop_perm _ t start hs

/-- The slot `e` still holds the same node after a sift-down that starts at a position holding
a copy of that node: the only exchange that can reach slot `e` exchanges the two copies. -/
theorem siftDownLoop_keeps_end : ∀ (fuel : Nat) (t : List TimerNode) (parent son e : Nat),
    parent < son → e < t.length → nodeAt t parent = nodeAt t e →
    nodeAt (siftDownLoop fuel t parent son e) e = nodeAt t e
  | 0, _, _, _, _, _, _, _ => rfl
  | fuel + 1, t, parent, son, e, hps, he, hcopy => by
    unfold siftDownLoop
    by_cases hs : son ≤ e
    · simp only [hs, if_true]
      have key : ∀ son1, son ≤ son1 → son1 ≤ e →
          nodeAt (siftDownLoop fuel (swapAt t parent son1) son1 (2 * son1 + 1) e) e
            = nodeAt t e := by
        intro son1 h1 h2
        have hp : parent < t.length := by omega
        have hs1 : son1 < t.length := by omega
        rw [siftDownLoop_keeps_end fuel _ son1 _ e (by omega) (by rw [swapAt_length]; exact he)]
        · rw [nodeAt_swapAt t parent son1 e hp hs1]
          by_cases h3 : e = son1
          · simp [h3, ← hcopy, h3 ▸ hcopy]
          · have h4 : e ≠ parent := by omega
            simp [h3, h4]
        · rw [nodeAt_swapAt t parent son1 son1 hp hs1, nodeAt_swapAt t parent son1 e hp hs1]
          by_cases h3 : e = son1
          · simp [h3]
          · have h4 : e ≠ parent := by omega
            simp [h3, h4, hcopy]
      split_ifs
      · rfl
      · exact key _ (by omega) (by omega)
      · rfl
      · exact key _ (by omega) (by omega)
    · simp [hs]

theorem siftDownLoop_length : ∀ (fuel : Nat) (t : List TimerNode) (parent son e : Nat),
    (siftDownLoop fuel t parent son e).length = t.length
  | 0, _, _, _, _ => rfl
  | fuel + 1, t, parent, son, e => by
    unfold siftDownLoop
    by_cases hs : son ≤ e
    · simp only [hs, if_true]
      split_ifs <;> simp [siftDownLoop_length fuel, swapAt_length]
    · simp [hs]

theorem siftUpLoop_length : ∀ (fuel : Nat) (t : List TimerNode) (son : Nat),
    (siftUpLoop fuel t son).length = t.length
  | 0, _, _ => rfl
  | fuel + 1, t, son => by
    by_cases h0 : 0 < son
    · by_cases hc : (nodeAt t ((son - 1) / 2)).expire < (nodeAt t son).expire
      · simp [siftUpLoop, h0, hc]
      · simp [siftUpLoop, h0, hc, siftUpLoop_length fuel, swapAt_length]
    · simp [siftUpLoop, h0]

/-! ### The fuel of the loops is enough

Each loop gives the same result for every fuel at or above the number of iterations it can
make; `siftUp`, `siftDown` and `delTimer` start their loop with such a fuel. -/

theorem siftUpLoop_fuel : ∀ (f1 f2 : Nat) (t : List TimerNode) (son : Nat),
    son ≤ f1 → son ≤ f2 → siftUpLoop f1 t son = siftUpLoop f2 t son
  | 0, 0, _, _, _, _ => rfl
  | 0, f2 + 1, t, son, h1, _ => by
    have : ¬ 0 < son := by omega
    simp [siftUpLoop, this]
  | f1 + 1, 0, t, son, _, h2 => by
    have : ¬ 0 < son := by omega
    simp [siftUpLoop, this]
  | f1 + 1, f2 + 1, t, son, h1, h2 => by
    by_cases h0 : 0 < son
    · by_cases hc : (nodeAt t ((son - 1) / 2)).expire < (nodeAt t son).expire
      · simp [siftUpLoop, h0, hc]
      · simp only [siftUpLoop, h0, hc, if_true, if_false]
        exact siftUpLoop_fuel f1 f2 _ _ (by omega) (by omega)
    · simp [siftUpLoop, h0]

theorem siftDownLoop_fuel : ∀ (f1 f2 : Nat) (t : List TimerNode) (parent son e : Nat),
    e + 1 - son ≤ f1 → e + 1 - son ≤ f2 →
    siftDownLoop f1 t parent son e = siftDownLoop f2 t parent son e
  | 0, 0, _, _, _, _, _, _ => rfl
  | 0, f2 + 1, t, parent, son, e, h1, _ => by
    have : ¬ son ≤ e := by omega
    simp [siftDownLoop, this]
  | f1 + 1, 0, t, parent, son, e, _, h2 => by
    have : ¬ son ≤ e := by omega
    simp [siftDownLoop, this]
  | f1 + 1, f2 + 1, t, parent, son, e, h1, h2 => by
    unfold siftDownLoop
    by_cases hs : son ≤ e
    · simp only [hs, if_true]
      split_ifs
      · rfl
      · exact siftDownLoop_fuel f1 f2 _ _ _ e (by omega) (by omega)
      · rfl
      · exact siftDownLoop_fuel f1 f2 _ _ _ e (by omega) (by omega)
    · simp [hs]

theorem delTimerLoop_fuel (timer_id : Int) : ∀ (f1 f2 : Nat) (t : List TimerNode) (i : Nat),
    t.length - i ≤ f1 → t.length - i ≤ f2 →
    delTimerLoop f1 t i timer_id = delTimerLoop f2 t i timer_id
  | 0, 0, _, _, _, _ => rfl
  | 0, f2 + 1, t, i, h1, _ => by
    have : ¬ i < t.length := by omega
    simp [delTimerLoop, this]
  | f1 + 1, 0, t, i, _, h2 => by
    have : ¬ i < t.length := by omega
    simp [delTimerLoop, this]
  | f1 + 1, f2 + 1, t, i, h1, h2 => by
    unfold delTimerLoop
    by_cases hi : i < t.length
    · by_cases hm : (nodeAt t i).id = timer_id
      · simp only [hi, hm, if_true]
        refine delTimerLoop_fuel timer_id f1 f2 _ _ ?_ ?_ <;>
          · simp only [List.length_dropLast, siftDown, siftDownLoop_length, List.length_set]
            omega
      · simp only [hi, hm, if_true, if_false]
        exact delTimerLoop_fuel timer_id f1 f2 _ _ (by omega) (by omega)
    · simp [hi]

/-- The `delTimer` loop never makes the vector longer. -/
theorem delTimerLoop_length_le (timer_id : Int) : ∀ (fuel : Nat) (t : List TimerNode) (i : Nat),
    (delTimerLoop fuel t i timer_id).length ≤ t.length
  | 0, _, _ => Nat.le_refl _
  | fuel + 1, t, i => by
    unfold delTimerLoop
    by_cases hi : i < t.length
    · by_cases hm : (nodeAt t i).id = timer_id
      · simp only [hi, hm, if_true]
        refine le_trans (delTimerLoop_length_le timer_id fuel _ _) ?_
        simp only [List.length_dropLast, siftDown, siftDownLoop_length, List.length_set]
        omega
      · simp only [hi, hm, if_true, if_false]
        exact delTimerLoop_length_le timer_id fuel _ _
    · simp [hi]

/-- A `delTimer` whose id is the id of the root makes the vector shorter. -/
theorem delTimer_root_length_lt (root : TimerNode) (rest : List TimerNode) (g : Int) :
    (delTimer ⟨root :: rest, g⟩ root.id).2.timer.length < (root :: rest).length := by
  simp only [delTimer, List.length_cons, delTimerLoop, Nat.zero_lt_succ, if_true, nodeAt,
    List.getD_cons_zero]
  refine lt_of_le_of_lt (delTimerLoop_length_le _ _ _ _) ?_
  simp only [List.length_dropLast, siftDown, siftDownLoop_length, List.length_set,
    List.length_cons]
  omega

/-- One matching iteration of the `delTimer` loop (lines 179-184) removes, up to order, exactly
the node at index `i`. -/
theorem delTimer_iteration_perm (t : List TimerNode) (i : Nat) (hi : i < t.length) :
    ((siftDown (t.set i (nodeAt t (t.length - 1))) i
        ((t.set i (nodeAt t (t.length - 1))).length - 1)).dropLast).Perm (t.eraseIdx i) := by
  set L := nodeAt t (t.length - 1) with hL
  set t1 := t.set i L with ht1
  have hlen1 : t1.length = t.length := by simp [ht1]
  have hi1 : i < t1.length := by omega
  have he1 : t1.length - 1 < t1.length := by omega
  set t2 := siftDown t1 i (t1.length - 1) with ht2
  have hperm : t2.Perm t1 := siftDown_perm t1 i _ hi1 he1
  have hlen2 : t2.length = t1.length := hperm.length_eq
  have hlast1 : nodeAt t1 (t1.length - 1) = L := by
    unfold nodeAt
    simp only [ht1, List.getD_eq_getElem?_getD, List.getElem?_set, List.length_set]
    by_cases h : i = t.length - 1
    · simp [h, he1, hlen1 ▸ he1]
    · simp [h, hL, nodeAt]
  have hat1 : nodeAt t1 i = L := by
    unfold nodeAt
    simp [ht1, List.getD_eq_getElem?_getD, List.getElem?_set, hi]
  have hlast2 : nodeAt t2 (t1.length - 1) = L := by
    rw [ht2]
    unfold siftDown
    rw [siftDownLoop_keeps_end _ t1 i _ _ (by omega) he1 (by rw [hat1, hlast1]), hlast1]
  have hne : t2 ≠ [] := by
    intro h; rw [h] at hlen2; simp at hlen2; omega
  have hgl : t2.getLast hne = L := by
    rw [List.getLast_eq_getElem, ← nodeAt_of_lt t2 _ (by omega), hlen2, hlast2]
  have hsplit : t2 = t2.dropLast ++ [L] := by
    rw [← hgl]; exact (List.dropLast_append_getLast hne).symm
  have h1 : (L :: t2.dropLast).Perm (L :: t.eraseIdx i) := by
    have := (List.perm_append_singleton L t2.dropLast).symm
    refine this.trans ?_
    rw [← hsplit]
    exact hperm.trans (set_perm_cons_eraseIdx L t i hi)
  exact h1.cons_inv

/-- The last slot after the sift-down of a matching `delTimer` iteration still holds the node
that was last before the iteration. -/
theorem delTimer_iteration_last_slot (t : List TimerNode) (i : Nat) (hi : i < t.length) :
    nodeAt (siftDown (t.set i (nodeAt t (t.length - 1))) i (t.length - 1)) (t.length - 1)
      = nodeAt t (t.length - 1) := by
  have hget : ∀ j, j < t.length →
      nodeAt (t.set i (nodeAt t (t.length - 1))) j
        = if i = j then nodeAt t (t.length - 1) else nodeAt t j := by
    intro j hj
    unfold nodeAt
    simp only [List.getD_eq_getElem?_getD, List.getElem?_set]
    by_cases h : i = j
    · simp [h, hj]
    · simp [h]
  unfold siftDown
  rw [siftDownLoop_keeps_end _ _ i _ _ (by omega) (by simp; omega)]
  · rw [hget _ (by omega)]; split_ifs <;> rfl
  · rw [hget _ hi, hget _ (by omega)]; simp

/-- In a vector with pairwise distinct ids that is, up to order, `e` and `rest`, no node of
`rest` has the id of `e`, and filtering that id out leaves `rest` up to order. -/
theorem filter_id_of_perm_cons (t rest : List TimerNode) (e : TimerNode) (h : Int)
    (hn : (t.map (fun x => x.id)).Nodup) (hp : t.Perm (e :: rest)) (he : e.id = h) :
    (∀ x ∈ rest, x.id ≠ h) ∧ (t.filter (fun x => decide (x.id ≠ h))).Perm rest := by
  have hn2 : ((e :: rest).map (fun x => x.id)).Nodup := (hp.map _).nodup_iff.mp hn
  have hnot : ∀ x ∈ rest, x.id ≠ h := by
    intro x hx hxe
    simp only [List.map_cons, List.nodup_cons, List.mem_map, not_exists, not_and] at hn2
    exact hn2.1 x hx (by rw [hxe, he])
  refine ⟨hnot, ?_⟩
  refine (hp.filter _).trans ?_
  rw [List.filter_cons_of_neg (by simp [he])]
  rw [List.filter_eq_self.mpr (by intro x hx; simpa using hnot x hx)]

/-- The `delTimer` loop changes nothing when no node has the id. -/
theorem delTimerLoop_of_no_match (timer_id : Int) : ∀ (fuel : Nat) (t : List TimerNode) (i : Nat),
    (∀ x ∈ t, x.id ≠ timer_id) → delTimerLoop fuel t i timer_id = t
  | 0, _, _, _ => rfl
  | fuel + 1, t, i, h => by
    unfold delTimerLoop
    by_cases hi : i < t.length
    · have := h _ (nodeAt_mem t i hi)
      simp only [hi, this, if_true, if_false]
      exact delTimerLoop_of_no_match timer_id fuel t (i + 1) h
    · simp [hi]

/-- On a vector with pairwise distinct ids the `delTimer` loop, run from an index with no match
before it and with enough fuel to reach the end, leaves exactly the nodes with another id. -/
theorem delTimerLoop_perm (timer_id : Int) : ∀ (fuel : Nat) (t : List TimerNode) (i : Nat),
    (t.map (fun x => x.id)).Nodup →
    (∀ j, j < i → j < t.length → (nodeAt t j).id ≠ timer_id) →
    t.length - i ≤ fuel →
    (delTimerLoop fuel t i timer_id).Perm (t.filter (fun x => decide (x.id ≠ timer_id)))
  | 0, t, i, _, hbefore, hfuel => by
    have hall : ∀ x ∈ t, x.id ≠ timer_id := by
      intro x hx
      obtain ⟨j, hj, rfl⟩ := List.getElem_of_mem hx
      rw [← nodeAt_of_lt t j hj]
      exact hbefore j (by omega) hj
    unfold delTimerLoop
    rw [List.filter_eq_self.mpr (by intro x hx; simpa using hall x hx)]
  | fuel + 1, t, i, hn, hbefore, hfuel => by
    unfold delTimerLoop
    by_cases hi : i < t.length
    · by_cases hm : (nodeAt t i).id = timer_id
      · simp only [hi, hm, if_true]
        have hit := delTimer_iteration_perm t i hi
        have hsplit : t.Perm (nodeAt t i :: t.eraseIdx i) :=
          (getD_cons_eraseIdx_perm dflt t i hi).symm
        obtain ⟨hnot, hfilter⟩ := filter_id_of_perm_cons t _ _ timer_id hn hsplit hm
        rw [delTimerLoop_of_no_match timer_id fuel _ (i + 1)
          (fun x hx => hnot x (hit.mem_iff.mp hx))]
        exact hit.trans hfilter.symm
      · simp only [hi, hm, if_true, if_false]
        refine delTimerLoop_perm timer_id fuel t (i + 1) hn ?_ (by omega)
        intro j hj hjl
        by_cases hji : j = i
        · rw [hji]; exact hm
        · exact hbefore j (by omega) hjl
    · have hall : ∀ x ∈ t, x.id ≠ timer_id := by
        intro x hx
        obtain ⟨j, hj, rfl⟩ := List.getElem_of_mem hx
        rw [← nodeAt_of_lt t j hj]
        exact hbefore j (by omega) hj
      simp only [hi, if_false]
      rw [List.filter_eq_self.mpr (by intro x hx; simpa using hall x hx)]

/-- The call `delTimer` on a store with pairwise distinct ids leaves, up to order, the nodes with another
id. -/
theorem delTimer_perm_filter (s : HeapTimer) (timer_id : Int)
    (hn : (s.timer.map (fun x => x.id)).Nodup) :
    (delTimer s timer_id).2.timer.Perm (s.timer.filter (fun x => decide (x.id ≠ timer_id))) :=
  delTimerLoop_perm timer_id _ s.timer 0 hn (fun j hj => absurd hj (Nat.not_lt_zero j))
    (by omega)

end HeapTimer

/-! ## The operations of the heap engine -/

namespace HeapTimer

/-! ### What each operation does to the multiset of entries -/

/-- The call `addTimer` returns the old counter value as id, advances the counter by one and adds, up to
order, exactly the new node. -/
theorem addTimer_perm (s : HeapTimer) (now msec : Int) (func : Callback) (r : Int) :
    (addTimer s now msec func r).1 = s.g_id ∧
    (addTimer s now msec func r).2.g_id = s.g_id + 1 ∧
    (addTimer s now msec func r).2.timer.Perm
      (s.timer ++ [⟨⟨now + msec, s.g_id⟩, func, r, msec⟩]) := by
  refine ⟨rfl, rfl, ?_⟩
  simp only [addTimer]
  exact siftUp_perm _ _ (by simp)

/-- The two outcomes of `checkTimer`: nothing happens, or the root is fired and is then either
removed (repeat was 1, ids pairwise distinct) or rescheduled in place. -/
theorem checkTimer_cases (s : HeapTimer) (now : Int) :
    ((∀ root ∈ s.timer.head?, now < root.expire) ∧ checkTimer s now = ⟨false, s, []⟩) ∨
    ∃ root rest, s.timer = root :: rest ∧ root.expire ≤ now ∧
      (checkTimer s now).ret = true ∧ (checkTimer s now).calls = [root] ∧
      (checkTimer s now).store.g_id = s.g_id ∧
      ((root.«repeat» = 1 ∧
          ((s.timer.map (fun x => x.id)).Nodup → (checkTimer s now).store.timer.Perm rest)) ∨
       (root.«repeat» ≠ 1 ∧ (checkTimer s now).store.timer.Perm
          (⟨⟨root.expire + root.msec, root.id⟩, root.func, root.«repeat» - 1, root.msec⟩
            :: rest))) := by
  obtain ⟨timer, g⟩ := s
  cases timer with
  | nil => left; simp [checkTimer]
  | cons root rest =>
    by_cases hdue : root.expire ≤ now
    · right
      refine ⟨root, rest, rfl, hdue, ?_⟩
      by_cases hr : root.«repeat» = 1
      · have hr0 : root.«repeat» - 1 = 0 := by omega
        refine ⟨by simp [checkTimer, hdue, hr0], by simp [checkTimer, hdue, hr0],
          by simp [checkTimer, hdue, hr0, delTimer], Or.inl ⟨hr, ?_⟩⟩
        intro hn
        simp only [checkTimer, hdue, if_true]
        rw [if_pos hr0]
        have hn1 : ((({ root with «repeat» := root.«repeat» - 1 } : TimerNode) :: rest).map
            (fun x => x.id)).Nodup := by simpa using hn
        exact (delTimer_perm_filter ⟨_ :: rest, g⟩ root.id hn1).trans
          (filter_id_of_perm_cons _ rest _ root.id hn1 (List.Perm.refl _) rfl).2
      · have hr0 : ¬ (root.«repeat» - 1 = 0) := by omega
        refine ⟨by simp [checkTimer, hdue, hr0], by simp [checkTimer, hdue, hr0],
          by simp [checkTimer, hdue, hr0], Or.inr ⟨hr, ?_⟩⟩
        simp only [checkTimer, hdue, hr0, if_true, if_false]
        exact siftDown_perm _ 0 _ (by simp) (by simp)
    · left
      have hlt : now < root.expire := by omega
      simp [checkTimer, hdue, hlt]

/-! ### Ids stay pairwise distinct and below the counter -/

/-- Every call keeps the ids pairwise distinct and below the counter. -/
theorem idsOk_step (s : HeapTimer) (op : Op) (hs : idsOk s) : idsOk (step s op) := by
  obtain ⟨hn, hlt⟩ := hs
  cases op with
  | add now msec func r =>
    obtain ⟨_, hg, hp⟩ := addTimer_perm s now msec func r
    refine ⟨(hp.map _).nodup_iff.mpr ?_, ?_⟩
    · simp only [List.map_append, List.map_cons, List.map_nil]
      refine List.Nodup.append hn (List.nodup_singleton _) ?_
      intro x hx hx2
      obtain ⟨e, he, rfl⟩ := List.mem_map.mp hx
      have := hlt e he
      simp at hx2
      omega
    · intro e he
      show e.id < (addTimer s now msec func r).2.g_id
      rw [hg]
      rcases List.mem_append.mp (hp.mem_iff.mp he) with h1 | h1
      · have := hlt e h1; omega
      · simp at h1; rw [h1]; simp
  | del timer_id =>
    have hp := delTimer_perm_filter s timer_id hn
    refine ⟨(hp.map _).nodup_iff.mpr ?_, ?_⟩
    · exact hn.sublist ((List.filter_sublist _).map _)
    · intro e he
      exact hlt e (List.mem_filter.mp (hp.mem_iff.mp he)).1
  | check now =>
    rcases checkTimer_cases s now with ⟨_, heq⟩ | ⟨root, rest, hst, _, _, _, hg, hbr⟩
    · show idsOk (checkTimer s now).store
      rw [heq]; exact ⟨hn, hlt⟩
    · have hn2 := hn
      rw [hst] at hn2
      rcases hbr with ⟨_, hp⟩ | ⟨_, hp⟩
      · have hp := hp hn
        refine ⟨(hp.map _).nodup_iff.mpr ?_, ?_⟩
        · simp only [List.map_cons, List.nodup_cons] at hn2
          exact hn2.2
        · intro e he
          show e.id < (checkTimer s now).store.g_id
          rw [hg]
          exact hlt e (by rw [hst]; exact List.mem_cons_of_mem _ (hp.mem_iff.mp he))
      · refine ⟨(hp.map _).nodup_iff.mpr (by simpa using hn2), ?_⟩
        intro e he
        show e.id < (checkTimer s now).store.g_id
        rw [hg]
        rcases List.mem_cons.mp (hp.mem_iff.mp he) with h1 | h1
        · rw [h1]; exact hlt root (by rw [hst]; simp)
        · exact hlt e (by rw [hst]; exact List.mem_cons_of_mem _ h1)

/-- Every call sequence keeps the ids pairwise distinct and below the counter. -/
theorem idsOk_run (ops : List Op) : ∀ (s : HeapTimer), idsOk s → idsOk (run s ops) := by
  induction ops with
  | nil => intro s hs; exact hs
  | cons op ops ih => intro s hs; exact ih _ (idsOk_step s op hs)

/-- C1 (min correctness of the heap engine) fails on the code: after the calls of
`deleteThenFireOps`, which start from the empty store with non-decreasing clock readings, the
vector holds the expires 4, 3, 7, 6; the next `checkTimer` at tick 10 returns true and fires the
root, whose expire is 4, while the entry with expire 3 is live. -/
theorem checkTimer_fires_non_minimum_after_delTimer :
    (ticks (deleteThenFireOps ++ [Op.check 10])).Pairwise (· ≤ ·) ∧
    (run empty deleteThenFireOps).timer.map (fun e => (e.expire, e.id))
      = [(4, 1), (3, 6), (7, 5), (6, 4)] ∧
    (checkTimer (run empty deleteThenFireOps) 10).ret = true ∧
    (checkTimer (run empty deleteThenFireOps) 10).calls.map (fun e => (e.expire, e.id))
      = [(4, 1)] := by
  decide

/-- C2 (heap property after every call sequence) fails on the code: after the calls of
`interiorDeleteOps` the vector holds the expires 1, 10, 2, 4, 12, so index 3 (expire 4) is below
its parent index 1 (expire 10): `delTimer` moved the last element into the hole and sifted it
down only. -/
theorem delTimer_interior_breaks_heap :
    (run empty (interiorDeleteOps.take 6)).timer.map (fun e => (e.expire, e.id))
      = [(1, 0), (10, 1), (2, 2), (11, 3), (12, 4), (4, 5)] ∧
    isHeap (run empty (interiorDeleteOps.take 6)).timer ∧
    (run empty interiorDeleteOps).timer.map (fun e => (e.expire, e.id))
      = [(1, 0), (10, 1), (2, 2), (4, 5), (12, 4)] ∧
    ¬ isHeap (run empty interiorDeleteOps).timer := by
  decide

/-- C8 (idempotent delete, heap engine) fails on the code: `delTimer` returns false on every
store and every id, also when it removes an entry; on the store holding the single live id 0 the
first `delTimer(0)` empties the vector and returns false. -/
theorem delTimer_returns_false_on_removal :
    (∀ (s : HeapTimer) (timer_id : Int), (delTimer s timer_id).1 = false) ∧
    (addTimer empty 0 1000 (Callback.user 0) 1).2.timer.map (fun e => e.id) = [0] ∧
    (delTimer (addTimer empty 0 1000 (Callback.user 0) 1).2 0).1 = false ∧
    (delTimer (addTimer empty 0 1000 (Callback.user 0) 1).2 0).2.timer = [] := by
  refine ⟨fun _ _ => rfl, ?_, ?_, ?_⟩ <;> decide

/-- C10: on a store with pairwise distinct ids, `delTimer(h)` for a live id `h` (entry `e`, at
any index) leaves, as a multiset, the original entries minus `e`: one entry fewer, none with id
`h`, and every other entry exactly once with all fields unchanged; the id counter is untouched.
The last slot, which is the one erased, still holds the old last node after the sift-down. -/
theorem delTimer_removes_exactly_the_named_entry (s : HeapTimer) (h : Int) (e : TimerNode)
    (hn : (s.timer.map (fun x => x.id)).Nodup) (he : e ∈ s.timer) (hid : e.id = h) :
    (delTimer s h).2.timer.Perm (s.timer.erase e) ∧
    (delTimer s h).2.timer.length + 1 = s.timer.length ∧
    (∀ x ∈ (delTimer s h).2.timer, x.id ≠ h) ∧
    (∀ x ∈ s.timer, x ≠ e → (delTimer s h).2.timer.count x = 1) ∧
    (delTimer s h).2.g_id = s.g_id ∧
    (∀ i, i < s.timer.length →
      nodeAt (siftDown (s.timer.set i (nodeAt s.timer (s.timer.length - 1))) i
        (s.timer.length - 1)) (s.timer.length - 1) = nodeAt s.timer (s.timer.length - 1)) := by
  have hsplit : s.timer.Perm (e :: s.timer.erase e) := List.perm_cons_erase he
  obtain ⟨hnot, hfilter⟩ := filter_id_of_perm_cons s.timer _ e h hn hsplit hid
  have hperm : (delTimer s h).2.timer.Perm (s.timer.erase e) :=
    (delTimer_perm_filter s h hn).trans hfilter
  have hnd : s.timer.Nodup := List.Nodup.of_map _ hn
  refine ⟨hperm, ?_, ?_, ?_, rfl, ?_⟩
  · rw [hperm.length_eq, List.length_erase_of_mem he]
    have : 0 < s.timer.length := List.length_pos_of_mem he
    omega
  · intro x hx
    exact hnot x (hperm.mem_iff.mp hx)
  · intro x hx hxe
    rw [hperm.count_eq]
    exact List.count_eq_one_of_mem (hnd.erase e) ((List.mem_erase_of_ne hxe).mpr hx)
  · intro i hi
    exact delTimer_iteration_last_slot s.timer i hi

/-- C10 at the store of `main`: deleting the live id 1 (expire 2000, stored at the last index)
and nothing else. -/
theorem delTimer_removes_exactly_the_named_entry_witness :
    (mainStore.timer.map (fun x => x.id)).Nodup ∧
    (⟨⟨2000, 1⟩, Callback.user 1, 2, 2000⟩ : TimerNode) ∈ mainStore.timer ∧
    (delTimer mainStore 1).2.timer.Perm
      (mainStore.timer.erase ⟨⟨2000, 1⟩, Callback.user 1, 2, 2000⟩) ∧
    (delTimer mainStore 1).2.timer.length + 1 = mainStore.timer.length ∧
    (∀ x ∈ (delTimer mainStore 1).2.timer, x.id ≠ 1) :=
  have h := delTimer_removes_exactly_the_named_entry mainStore 1
    ⟨⟨2000, 1⟩, Callback.user 1, 2, 2000⟩ (by decide) (by decide) rfl
  ⟨by decide, by decide, h.1, h.2.1, h.2.2.1⟩

end HeapTimer

namespace Timer

/-- C7 (reschedule step of the ordered-set engine) fails on the code: a timer added at tick 0
with delay 500, repeat 2 and callback `user 7` gets id 0 and expire 500; firing it at tick 500
leaves a store whose only entry has id 1, expire 1500 (500 + 1000, not 500 + 500) and the
callback created by `checkTimer`; no entry with id 0 is left. -/
theorem checkTimer_reschedule_replaces_entry :
    (addTimer empty 0 500 (Callback.user 7) 2).2
      = ⟨[⟨⟨500, 0⟩, Callback.user 7, 2⟩], 1⟩ ∧
    (checkTimer (addTimer empty 0 500 (Callback.user 7) 2).2 500 500).ret = true ∧
    (checkTimer (addTimer empty 0 500 (Callback.user 7) 2).2 500 500).calls
      = [⟨⟨500, 0⟩, Callback.user 7, 2⟩] ∧
    (checkTimer (addTimer empty 0 500 (Callback.user 7) 2).2 500 500).store
      = ⟨[⟨⟨1500, 1⟩, Callback.checkTimerLambda, 1⟩], 2⟩ := by
  decide

end Timer

/-! ## Both engines -/

/-- In a vector with the min-heap property the root has the least expire. -/
theorem HeapTimer.isHeap_root_le (t : List HeapTimer.TimerNode) (hh : HeapTimer.isHeap t) :
    ∀ (i : Nat), i < t.length → (HeapTimer.nodeAt t 0).expire ≤ (HeapTimer.nodeAt t i).expire := by
  intro i
  induction i using Nat.strong_induction_on with
  | _ i ih =>
    intro hi
    by_cases h0 : i = 0
    · rw [h0]
    · have hp : (i - 1) / 2 < i := by omega
      exact le_trans (ih _ hp (by omega)) (hh i hi (by omega))

/-- The comparison `operator<` orders by expire first. -/
theorem operatorLt_expire_le (a b : NodeBase) (h : operatorLt a b = true) :
    a.expire ≤ b.expire := by
  unfold operatorLt at h
  by_cases h1 : a.expire < b.expire
  · omega
  · by_cases h2 : a.expire > b.expire
    · simp [h1, h2] at h
    · omega

/-- C4: in both engines `checkTimer` returns false, invokes no callback and leaves the store
(entries, order, id counter) unchanged exactly when the store is empty or its first entry has
expire > now (each of the three alone also holds exactly then); in every other case it returns
true and invokes exactly one callback, the one of the first entry, on that entry, whose expire
is ≤ now. -/
theorem checkTimer_never_fires_early :
    (∀ (s : HeapTimer) (now : Int),
      (((HeapTimer.checkTimer s now).ret = false ∧ (HeapTimer.checkTimer s now).calls = [] ∧
          (HeapTimer.checkTimer s now).store = s) ↔
        ∀ root ∈ s.timer.head?, now < root.expire) ∧
      ((HeapTimer.checkTimer s now).ret = false ↔ ∀ root ∈ s.timer.head?, now < root.expire) ∧
      ((HeapTimer.checkTimer s now).calls = [] ↔ ∀ root ∈ s.timer.head?, now < root.expire) ∧
      ((HeapTimer.checkTimer s now).store = s ↔ ∀ root ∈ s.timer.head?, now < root.expire) ∧
      (¬ (∀ root ∈ s.timer.head?, now < root.expire) →
        ∃ root, s.timer.head? = some root ∧ root.expire ≤ now ∧
          (HeapTimer.checkTimer s now).ret = true ∧
          (HeapTimer.checkTimer s now).calls = [root])) ∧
    (∀ (s : Timer) (now now2 : Int),
      (((Timer.checkTimer s now now2).ret = false ∧ (Timer.checkTimer s now now2).calls = [] ∧
          (Timer.checkTimer s now now2).store = s) ↔
        ∀ first ∈ s.timer.head?, now < first.expire) ∧
      ((Timer.checkTimer s now now2).ret = false ↔
        ∀ first ∈ s.timer.head?, now < first.expire) ∧
      ((Timer.checkTimer s now now2).calls = [] ↔
        ∀ first ∈ s.timer.head?, now < first.expire) ∧
      ((Timer.checkTimer s now now2).store = s ↔
        ∀ first ∈ s.timer.head?, now < first.expire) ∧
      (¬ (∀ first ∈ s.timer.head?, now < first.expire) →
        ∃ first, s.timer.head? = some first ∧ first.expire ≤ now ∧
          (Timer.checkTimer s now now2).ret = true ∧
          (Timer.checkTimer s now now2).calls = [first])) := by
  constructor
  · intro s now
    obtain ⟨timer, g⟩ := s
    cases timer with
    | nil => simp [HeapTimer.checkTimer]
    | cons root rest =>
      by_cases hdue : root.expire ≤ now
      · have hnot : ¬ now < root.expire := by omega
        have hchanged : (HeapTimer.checkTimer ⟨root :: rest, g⟩ now).store
            ≠ ⟨root :: rest, g⟩ := by
          intro heq
          by_cases hr : root.«repeat» - 1 = 0
          · have hlen := HeapTimer.delTimer_root_length_lt
              { root with «repeat» := root.«repeat» - 1 } rest g
            simp only [HeapTimer.checkTimer, hdue, if_true] at heq
            rw [if_pos hr] at heq
            simp only at heq
            rw [heq] at hlen
            simp at hlen
          · have hp := (HeapTimer.checkTimer_cases ⟨root :: rest, g⟩ now)
            rcases hp with ⟨h1, _⟩ | ⟨root1, rest1, hst, _, _, _, _, hbr⟩
            · exact hnot (h1 root (by simp))
            · simp only [HeapTimer.mk.injEq, List.cons.injEq, and_true] at hst
              obtain ⟨h1, h2⟩ := hst
              subst h1 h2
              rcases hbr with ⟨hr1, _⟩ | ⟨_, hp⟩
              · omega
              · rw [heq] at hp
                have hsum := (hp.map (fun x => x.«repeat»)).sum_eq
                simp only [List.map_cons, List.sum_cons] at hsum
                omega
        by_cases hr : root.«repeat» - 1 = 0 <;>
          simpa [HeapTimer.checkTimer, hdue, hnot, hr] using hchanged
      · have hlt : now < root.expire := by omega
        simp [HeapTimer.checkTimer, hdue, hlt]
  · intro s now now2
    obtain ⟨timer, g⟩ := s
    cases timer with
    | nil => simp [Timer.checkTimer]
    | cons first rest =>
      by_cases hdue : first.expire ≤ now
      · have hnot : ¬ now < first.expire := by omega
        by_cases hr : first.«repeat» = 1
        · have hne : rest ≠ first :: rest := by
            intro h
            have := congrArg List.length h
            simp at this
          simp [Timer.checkTimer, hdue, hnot, hr, hne]
        · simp [Timer.checkTimer, hdue, hnot, hr]
      · have hlt : now < first.expire := by omega
        simp [Timer.checkTimer, hdue, hlt]

/-! ## The ordered-set engine -/

namespace Timer

theorem operatorLt_irrefl (a : NodeBase) : operatorLt a a = false := by
  simp [operatorLt]

/-- Two keys that are equivalent for `operator<` have the same id. -/
theorem id_eq_of_equiv (a b : NodeBase) (h1 : operatorLt a b = false)
    (h2 : operatorLt b a = false) : a.id = b.id := by
  unfold operatorLt at h1 h2
  by_cases h3 : a.expire < b.expire
  · simp [h3] at h1
  · by_cases h4 : b.expire < a.expire
    · simp [h4] at h2
    · simp [h3, h4] at h1 h2
      omega

/-- Emplacing a node whose id occurs in no element inserts it, and the returned position is
where `find` finds its key and where erasing restores the old elements. -/
theorem setEmplace_fresh (x : TimerNode) : ∀ (l : List TimerNode),
    (∀ y ∈ l, y.id ≠ x.id) →
    (setEmplace x l).inserted = true ∧
    (setEmplace x l).elems.get? (setEmplace x l).pos = some x ∧
    setFind x.toNodeBase (setEmplace x l).elems = some (setEmplace x l).pos ∧
    (setEmplace x l).elems.eraseIdx (setEmplace x l).pos = l
  | [], _ => by simp [setEmplace, setFind, operatorLt_irrefl]
  | y :: ys, h => by
    have hy : y.id ≠ x.id := h y (by simp)
    have ih := setEmplace_fresh x ys (fun z hz => h z (by simp [hz]))
    unfold setEmplace
    by_cases h1 : operatorLt x.toNodeBase y.toNodeBase = true
    · simp [h1, setFind, operatorLt_irrefl]
    · by_cases h2 : operatorLt y.toNodeBase x.toNodeBase = true
      · simp only [h1, h2, if_true, if_false]
        refine ⟨ih.1, ?_, ?_, ?_⟩
        · simpa using ih.2.1
        · simp [setFind, h2, ih.2.2.1]
        · simp [ih.2.2.2]
      · exact absurd (id_eq_of_equiv y.toNodeBase x.toNodeBase (by simpa using h2)
          (by simpa using h1)) hy

/-- The lookup `find` returns `end()` for a key whose id occurs in no element. -/
theorem setFind_fresh (key : NodeBase) : ∀ (l : List TimerNode),
    (∀ y ∈ l, y.id ≠ key.id) → setFind key l = none
  | [], _ => rfl
  | y :: ys, h => by
    have hy : y.id ≠ key.id := h y (by simp)
    have ih := setFind_fresh key ys (fun z hz => h z (by simp [hz]))
    unfold setFind
    by_cases h1 : operatorLt y.toNodeBase key = true
    · simp [h1, ih]
    · by_cases h2 : operatorLt key y.toNodeBase = true
      · simp [h1, h2]
      · exact absurd (id_eq_of_equiv y.toNodeBase key (by simpa using h1)
          (by simpa using h2)) hy

/-- C9: on an ordered-set store whose live ids are all below the id counter, for every delay,
repeat, callback and clock reading, `addTimer` returns the key (expire, id) of the new entry;
`delTimer` on that handle returns true and restores the elements exactly as they were before
the `addTimer`, with only the id counter advanced by one; a second `delTimer` with the same
handle returns false and changes nothing. -/
theorem addTimer_delTimer_round_trip (s : Timer) (now msec : Int) (func : Callback)
    (r : Int) (hid : ∀ e ∈ s.timer, e.id < s.g_id) :
    (addTimer s now msec func r).1 = ⟨now + msec, s.g_id⟩ ∧
    (delTimer (addTimer s now msec func r).2 (addTimer s now msec func r).1).1 = true ∧
    (delTimer (addTimer s now msec func r).2 (addTimer s now msec func r).1).2
      = ⟨s.timer, s.g_id + 1⟩ ∧
    delTimer (delTimer (addTimer s now msec func r).2 (addTimer s now msec func r).1).2
        (addTimer s now msec func r).1
      = (false, ⟨s.timer, s.g_id + 1⟩) := by
  have hfresh : ∀ y ∈ s.timer, y.id ≠ s.g_id := fun y hy => ne_of_lt (hid y hy)
  obtain ⟨_, h2, h3, h4⟩ :=
    setEmplace_fresh ⟨⟨now + msec, s.g_id⟩, func, r⟩ s.timer hfresh
  have hkey : (addTimer s now msec func r).1 = ⟨now + msec, s.g_id⟩ := by
    simp only [addTimer, h2]
  have hnone := setFind_fresh ⟨now + msec, s.g_id⟩ s.timer hfresh
  have hdel : delTimer (addTimer s now msec func r).2 ⟨now + msec, s.g_id⟩
      = (true, ⟨s.timer, s.g_id + 1⟩) := by
    simp only [addTimer, delTimer, h3, h4]
  have hdel2 : delTimer ⟨s.timer, s.g_id + 1⟩ ⟨now + msec, s.g_id⟩
      = (false, ⟨s.timer, s.g_id + 1⟩) := by
    simp only [delTimer, hnone]
  rw [hkey, hdel]
  exact ⟨rfl, rfl, rfl, hdel2⟩

/-- C9 at the `main` of timer.cpp (lines 152-163): the store holds ids 0 and 1 (expire 1000),
the timer with delay 3000 is added at tick 0 and deleted again. -/
theorem addTimer_delTimer_round_trip_witness :
    (∀ e ∈ [(⟨⟨1000, 0⟩, Callback.user 0, 3⟩ : TimerNode), ⟨⟨1000, 1⟩, Callback.user 1, 1⟩],
      e.id < 2) ∧
    (addTimer ⟨[⟨⟨1000, 0⟩, Callback.user 0, 3⟩, ⟨⟨1000, 1⟩, Callback.user 1, 1⟩], 2⟩
      0 3000 (Callback.user 2) 1).1 = ⟨0 + 3000, 2⟩ ∧
    (delTimer (addTimer ⟨[⟨⟨1000, 0⟩, Callback.user 0, 3⟩, ⟨⟨1000, 1⟩, Callback.user 1, 1⟩], 2⟩
      0 3000 (Callback.user 2) 1).2
      (addTimer ⟨[⟨⟨1000, 0⟩, Callback.user 0, 3⟩, ⟨⟨1000, 1⟩, Callback.user 1, 1⟩], 2⟩
      0 3000 (Callback.user 2) 1).1).1 = true :=
  have h := addTimer_delTimer_round_trip
    ⟨[⟨⟨1000, 0⟩, Callback.user 0, 3⟩, ⟨⟨1000, 1⟩, Callback.user 1, 1⟩], 2⟩
    0 3000 (Callback.user 2) 1 (by decide)
  ⟨by decide, h.1, h.2.1⟩

end Timer

/-! ## Further claims on single operations -/

/-- Two keys that are equivalent for `operator<` are the same (expire, id) pair. -/
theorem Timer.eq_of_equiv (a b : NodeBase) (h1 : operatorLt a b = false)
    (h2 : operatorLt b a = false) : a = b := by
  obtain ⟨ae, ai⟩ := a
  obtain ⟨be, bi⟩ := b
  unfold operatorLt at h1 h2
  simp only at h1 h2
  by_cases h3 : ae < be
  · simp [h3] at h1
  · by_cases h4 : be < ae
    · simp [h4] at h2
    · simp [h3, h4] at h1 h2
      have he : ae = be := by omega
      have hi : ai = bi := by omega
      rw [he, hi]

/-- The lookup `find` returns `end()` for a key that is the (expire, id) pair of no element. -/
theorem Timer.setFind_of_no_match (key : NodeBase) : ∀ (l : List Timer.TimerNode),
    (∀ y ∈ l, y.toNodeBase ≠ key) → Timer.setFind key l = none
  | [], _ => rfl
  | y :: ys, h => by
    have hy : y.toNodeBase ≠ key := h y (by simp)
    have ih := Timer.setFind_of_no_match key ys (fun z hz => h z (by simp [hz]))
    unfold Timer.setFind
    by_cases h1 : operatorLt y.toNodeBase key = true
    · simp [h1, ih]
    · by_cases h2 : operatorLt key y.toNodeBase = true
      · simp [h1, h2]
      · exact absurd (Timer.eq_of_equiv y.toNodeBase key (by simpa using h1)
          (by simpa using h2)) hy

/-- C11: `delTimer` with a handle that matches no live entry returns false and leaves the store
identical (same vector in the same order, same id counter): in the heap engine when no entry has
the id, in the ordered-set engine when no element has the (expire, id) pair. -/
theorem delTimer_unknown_handle_no_effect :
    (∀ (s : HeapTimer) (timer_id : Int), (∀ e ∈ s.timer, e.id ≠ timer_id) →
      HeapTimer.delTimer s timer_id = (false, s)) ∧
    (∀ (s : Timer) (node : NodeBase), (∀ e ∈ s.timer, e.toNodeBase ≠ node) →
      Timer.delTimer s node = (false, s)) := by
  constructor
  · intro s timer_id h
    simp only [HeapTimer.delTimer, HeapTimer.delTimerLoop_of_no_match timer_id _ _ 0 h]
  · intro s node h
    simp only [Timer.delTimer, Timer.setFind_of_no_match node s.timer h]

/-- C11 at the store of `main` of HeapTimer.cpp with the id 7, which no entry has, and at a
two-element ordered set with the pair (1000, 5). -/
theorem delTimer_unknown_handle_no_effect_witness :
    (∀ e ∈ HeapTimer.mainStore.timer, e.id ≠ 7) ∧
    HeapTimer.delTimer HeapTimer.mainStore 7 = (false, HeapTimer.mainStore) ∧
    Timer.delTimer ⟨[⟨⟨1000, 0⟩, Callback.user 0, 3⟩, ⟨⟨1000, 1⟩, Callback.user 1, 1⟩], 2⟩
      ⟨1000, 5⟩
      = (false, ⟨[⟨⟨1000, 0⟩, Callback.user 0, 3⟩, ⟨⟨1000, 1⟩, Callback.user 1, 1⟩], 2⟩) :=
  ⟨by decide, delTimer_unknown_handle_no_effect.1 HeapTimer.mainStore 7 (by decide),
   delTimer_unknown_handle_no_effect.2 _ ⟨1000, 5⟩ (by decide)⟩

/-- C15: `operator<` on `NodeBase` is the strict lexicographic order on (expire, id): it holds
iff the expire is smaller, or the expires are equal and the id is smaller; it is irreflexive and
transitive; of `a < b`, `b < a` and `a = b` exactly one holds; two keys with equal expire and
different ids are never equivalent. -/
theorem operatorLt_strict_total_order :
    (∀ a b : NodeBase, operatorLt a b = true ↔
      (a.expire < b.expire ∨ (a.expire = b.expire ∧ a.id < b.id))) ∧
    (∀ a : NodeBase, operatorLt a a = false) ∧
    (∀ a b c : NodeBase, operatorLt a b = true → operatorLt b c = true →
      operatorLt a c = true) ∧
    (∀ a b : NodeBase,
      (operatorLt a b = true ∨ operatorLt b a = true ∨ a = b) ∧
      ¬ (operatorLt a b = true ∧ operatorLt b a = true) ∧
      ¬ (operatorLt a b = true ∧ a = b) ∧
      ¬ (operatorLt b a = true ∧ a = b)) ∧
    (∀ a b : NodeBase, a.expire = b.expire → a.id ≠ b.id →
      operatorLt a b = true ∨ operatorLt b a = true) := by
  have hiff : ∀ a b : NodeBase, operatorLt a b = true ↔
      (a.expire < b.expire ∨ (a.expire = b.expire ∧ a.id < b.id)) := by
    intro a b
    unfold operatorLt
    by_cases h1 : a.expire < b.expire
    · simp [h1]
    · by_cases h2 : a.expire > b.expire
      · simp [h1, h2]; omega
      · simp [h1, h2]
        intro _
        omega
  have hext : ∀ a b : NodeBase, a.expire = b.expire → a.id = b.id → a = b := by
    intro a b h1 h2
    cases a; cases b; simp_all
  refine ⟨hiff, ?_, ?_, ?_, ?_⟩
  · intro a
    simp [operatorLt]
  · intro a b c hab hbc
    rw [hiff] at hab hbc ⊢
    omega
  · intro a b
    refine ⟨?_, ?_, ?_, ?_⟩
    · by_cases h : a.expire = b.expire ∧ a.id = b.id
      · exact Or.inr (Or.inr (hext a b h.1 h.2))
      · rw [hiff, hiff]
        omega
    · rw [hiff, hiff]; omega
    · rintro ⟨h1, h2⟩
      rw [hiff, h2] at h1
      omega
    · rintro ⟨h1, h2⟩
      rw [hiff, h2] at h1
      omega
  · intro a b h1 h2
    rw [hiff, hiff]
    omega

/-- The elements after `set::emplace` are, up to order, the old ones and the new node when it
was inserted, and exactly the old ones when an equivalent element blocked it. -/
theorem Timer.setEmplace_perm (x : Timer.TimerNode) : ∀ (l : List Timer.TimerNode),
    (Timer.setEmplace x l).elems.Perm (if (Timer.setEmplace x l).inserted then x :: l else l)
  | [] => by simp [Timer.setEmplace]
  | y :: ys => by
    have ih := Timer.setEmplace_perm x ys
    unfold Timer.setEmplace
    by_cases h1 : operatorLt x.toNodeBase y.toNodeBase = true
    · simp [h1]
    · by_cases h2 : operatorLt y.toNodeBase x.toNodeBase = true
      · simp only [h1, h2, if_true, if_false]
        by_cases h3 : (Timer.setEmplace x ys).inserted = true
        · simp only [h3, if_true] at ih ⊢
          exact (ih.cons y).trans (List.Perm.swap x y ys)
        · simp only [h3, if_false] at ih ⊢
          exact ih.cons y
      · simp [h1, h2]

/-- C18 fails on the code: two timers added at tick 0 with the same delay 1000 get the same
expire; the sift-up of the second `addTimer` exchanges it with its parent, so the newer timer
(id 1) is at the root and the older one (id 0) below it. -/
theorem HeapTimer.siftUp_moves_equal_expire_above_parent :
    (HeapTimer.run HeapTimer.empty
      [.add 0 1000 (Callback.user 0) 1, .add 0 1000 (Callback.user 1) 1]).timer.map
        (fun e => (e.expire, e.id))
      = [(1000, 1), (1000, 0)] := by
  decide

/-- C18 as amended: one round of the sift-up loop at a non-root position stops, leaving the
vector as it is, when the parent's expire is strictly less than the child's, and otherwise (the
child's expire is less than or equal to the parent's) exchanges child and parent and continues
from the parent; at the root the loop stops. So a timer added to a store holding one entry goes
to the root when its expire is less than or equal to that entry's, and stays below it only when
its expire is strictly greater. -/
theorem HeapTimer.siftUp_stop_condition :
    (∀ (fuel : Nat) (t : List HeapTimer.TimerNode) (son : Nat), 0 < son →
      ((HeapTimer.nodeAt t ((son - 1) / 2)).expire < (HeapTimer.nodeAt t son).expire →
        HeapTimer.siftUpLoop (fuel + 1) t son = t) ∧
      ((HeapTimer.nodeAt t son).expire ≤ (HeapTimer.nodeAt t ((son - 1) / 2)).expire →
        HeapTimer.siftUpLoop (fuel + 1) t son
          = HeapTimer.siftUpLoop fuel (HeapTimer.swapAt t son ((son - 1) / 2))
              ((son - 1) / 2))) ∧
    (∀ (fuel : Nat) (t : List HeapTimer.TimerNode), HeapTimer.siftUpLoop fuel t 0 = t) ∧
    (∀ (e : HeapTimer.TimerNode) (g now msec : Int) (func : Callback) (r : Int),
      (now + msec ≤ e.expire →
        (HeapTimer.addTimer ⟨[e], g⟩ now msec func r).2.timer
          = [⟨⟨now + msec, g⟩, func, r, msec⟩, e]) ∧
      (e.expire < now + msec →
        (HeapTimer.addTimer ⟨[e], g⟩ now msec func r).2.timer
          = [e, ⟨⟨now + msec, g⟩, func, r, msec⟩])) := by
  refine ⟨?_, ?_, ?_⟩
  · intro fuel t son h0
    constructor
    · intro h
      simp [HeapTimer.siftUpLoop, h0, h]
    · intro h
      have hn : ¬ (HeapTimer.nodeAt t ((son - 1) / 2)).expire
          < (HeapTimer.nodeAt t son).expire := by omega
      simp only [HeapTimer.siftUpLoop, h0, hn, if_true, if_false]
  · intro fuel t
    cases fuel <;> simp [HeapTimer.siftUpLoop]
  · intro e g now msec func r
    constructor
    · intro h
      have hn : ¬ e.expire < now + msec := by omega
      simp [HeapTimer.addTimer, HeapTimer.siftUp, HeapTimer.siftUpLoop, HeapTimer.nodeAt,
        HeapTimer.swapAt, hn]
    · intro h
      simp [HeapTimer.addTimer, HeapTimer.siftUp, HeapTimer.siftUpLoop, HeapTimer.nodeAt, h]

/-- C18 as amended, after one timer with expire 1000: a second timer with the same expire goes
to the root, one with expire 1001 stays below. -/
theorem HeapTimer.siftUp_stop_condition_witness :
    (HeapTimer.addTimer ⟨[⟨⟨1000, 0⟩, Callback.user 0, 1, 1000⟩], 1⟩ 0 1000
        (Callback.user 1) 1).2.timer
      = [⟨⟨0 + 1000, 1⟩, Callback.user 1, 1, 1000⟩, ⟨⟨1000, 0⟩, Callback.user 0, 1, 1000⟩] ∧
    (HeapTimer.addTimer ⟨[⟨⟨1000, 0⟩, Callback.user 0, 1, 1000⟩], 1⟩ 0 1001
        (Callback.user 1) 1).2.timer
      = [⟨⟨1000, 0⟩, Callback.user 0, 1, 1000⟩, ⟨⟨0 + 1001, 1⟩, Callback.user 1, 1, 1001⟩] :=
  ⟨(HeapTimer.siftUp_stop_condition.2.2 ⟨⟨1000, 0⟩, Callback.user 0, 1, 1000⟩ 1 0 1000
      (Callback.user 1) 1).1 (by decide),
   (HeapTimer.siftUp_stop_condition.2.2 ⟨⟨1000, 0⟩, Callback.user 0, 1, 1000⟩ 1 0 1001
      (Callback.user 1) 1).2 (by decide)⟩

/-! ## Ids handed out -/

/-- The list `g, g + 1, ..., g + n` written from its head. -/
theorem range_shift (g : Int) (n : Nat) :
    g :: (List.range n).map (fun (i : Nat) => g + 1 + (i : Int))
      = (List.range (n + 1)).map (fun (i : Nat) => g + (i : Int)) := by
  rw [List.range_succ_eq_map, List.map_cons, List.map_map]
  simp only [Nat.cast_zero, add_zero]
  congr 1
  apply List.map_congr_left
  intro i _
  show g + 1 + (i : Int) = g + ((i + 1 : Nat) : Int)
  push_cast
  omega

namespace HeapTimer

/-- One call advances the counter by the number of ids it hands out, hands out nothing or the
counter value, and leaves only entries whose id was live before or was just handed out. -/
theorem issued_step (s : HeapTimer) (op : Op) (hs : idsOk s) :
    (step s op).g_id = s.g_id + (stepIssued s op).length ∧
    (stepIssued s op = [] ∨ stepIssued s op = [s.g_id]) ∧
    ∀ e ∈ (step s op).timer, (∃ e0 ∈ s.timer, e0.id = e.id) ∨ e.id ∈ stepIssued s op := by
  cases op with
  | add now msec func r =>
    obtain ⟨h1, h2, h3⟩ := addTimer_perm s now msec func r
    refine ⟨by simpa [step, stepIssued] using h2, Or.inr (by simp [stepIssued, h1]), ?_⟩
    intro e he
    rcases List.mem_append.mp (h3.mem_iff.mp he) with h | h
    · exact Or.inl ⟨e, h, rfl⟩
    · right
      simp only [List.mem_singleton] at h
      simp [stepIssued, h1, h]
  | del timer_id =>
    refine ⟨by simp [step, stepIssued, delTimer], Or.inl rfl, ?_⟩
    intro e he
    have hp := delTimer_perm_filter s timer_id hs.1
    exact Or.inl ⟨e, (List.mem_filter.mp (hp.mem_iff.mp he)).1, rfl⟩
  | check now =>
    refine ⟨?_, Or.inl rfl, ?_⟩
    · rcases checkTimer_cases s now with ⟨_, heq⟩ | ⟨_, _, _, _, _, _, hg, _⟩
      · simp [step, stepIssued, heq]
      · simpa [step, stepIssued] using hg
    · intro e he
      left
      rcases checkTimer_cases s now with ⟨_, heq⟩ | ⟨root, rest, hst, _, _, _, _, hbr⟩
      · have h1 : step s (Op.check now) = s := by
          show (checkTimer s now).store = s; rw [heq]
        rw [h1] at he
        exact ⟨e, he, rfl⟩
      · rcases hbr with ⟨_, hp⟩ | ⟨_, hp⟩
        · exact ⟨e, by rw [hst]; exact List.mem_cons_of_mem _ ((hp hs.1).mem_iff.mp he), rfl⟩
        · rcases List.mem_cons.mp (hp.mem_iff.mp he) with h | h
          · exact ⟨root, by rw [hst]; simp, by rw [h]⟩
          · exact ⟨e, by rw [hst]; exact List.mem_cons_of_mem _ h, rfl⟩

/-- The ids handed out by a run from a store with counter `g` are `g, g + 1, ...`; the counter
ends at `g` plus their number, and every entry live at the end has an id that was live at the
start or was handed out. -/
theorem issued_run (ops : List Op) : ∀ (s : HeapTimer), idsOk s →
    runIssued s ops
      = (List.range (runIssued s ops).length).map (fun (i : Nat) => s.g_id + (i : Int)) ∧
    (run s ops).g_id = s.g_id + (runIssued s ops).length ∧
    ∀ e ∈ (run s ops).timer, (∃ e0 ∈ s.timer, e0.id = e.id) ∨ e.id ∈ runIssued s ops := by
  induction ops with
  | nil =>
    intro s _
    exact ⟨by simp [runIssued], by simp [run, runIssued], fun e he => Or.inl ⟨e, he, rfl⟩⟩
  | cons op ops ih =>
    intro s hs
    obtain ⟨h1, h2, h3⟩ := issued_step s op hs
    obtain ⟨i1, i2, i3⟩ := ih (step s op) (idsOk_step s op hs)
    have hrun : run s (op :: ops) = run (step s op) ops := rfl
    have hmem : ∀ e ∈ (run s (op :: ops)).timer,
        (∃ e0 ∈ s.timer, e0.id = e.id) ∨ e.id ∈ runIssued s (op :: ops) := by
      intro e he
      rw [hrun] at he
      simp only [runIssued, List.mem_append]
      rcases i3 e he with ⟨e0, he0, hid⟩ | h
      · rcases h3 e0 he0 with ⟨e1, he1, hid1⟩ | h
        · exact Or.inl ⟨e1, he1, by rw [hid1, hid]⟩
        · exact Or.inr (Or.inl (by rw [← hid]; exact h))
      · exact Or.inr (Or.inr h)
    rcases h2 with h2 | h2
    · simp only [h2, List.length_nil, Nat.cast_zero, add_zero] at h1
      simp only [runIssued, h2, List.nil_append] at hmem ⊢
      rw [h1] at i1 i2
      exact ⟨i1, by rw [hrun]; exact i2, hmem⟩
    · simp only [h2, List.length_singleton, Nat.cast_one] at h1
      simp only [runIssued, h2, List.singleton_append, List.length_cons] at hmem ⊢
      rw [h1] at i1 i2
      refine ⟨?_, ?_, hmem⟩
      · rw [← range_shift, ← i1]
      · rw [hrun, i2]; push_cast; omega

end HeapTimer

namespace Timer

/-- A part of a store with consistent ids, under a counter that is not smaller, has consistent
ids. -/
theorem idsOk_of_sublist (l1 l : List TimerNode) (g1 g : Int) (hsub : l1.Sublist l)
    (hg : g ≤ g1) (hs : idsOk ⟨l, g⟩) : idsOk ⟨l1, g1⟩ := by
  refine ⟨hs.1.sublist (hsub.map _), ?_⟩
  intro e he
  have := hs.2 e (hsub.subset he)
  simp only at this ⊢
  omega

/-- Emplacing a node whose id is the counter value into a store with consistent ids inserts it;
the handle of `addTimer` is its key, and the ids stay consistent under the next counter
value. -/
theorem emplace_counter_id (s : Timer) (expire : Int) (func : Callback) (r : Int)
    (hs : idsOk s) :
    (setEmplace ⟨⟨expire, s.g_id⟩, func, r⟩ s.timer).inserted = true ∧
    (setEmplace ⟨⟨expire, s.g_id⟩, func, r⟩ s.timer).elems.get?
        (setEmplace ⟨⟨expire, s.g_id⟩, func, r⟩ s.timer).pos
      = some ⟨⟨expire, s.g_id⟩, func, r⟩ ∧
    (setEmplace ⟨⟨expire, s.g_id⟩, func, r⟩ s.timer).elems.Perm
      (⟨⟨expire, s.g_id⟩, func, r⟩ :: s.timer) ∧
    idsOk ⟨(setEmplace ⟨⟨expire, s.g_id⟩, func, r⟩ s.timer).elems, s.g_id + 1⟩ := by
  have hfresh : ∀ y ∈ s.timer, y.id ≠ s.g_id := fun y hy => ne_of_lt (hs.2 y hy)
  obtain ⟨h1, h2, _, _⟩ := setEmplace_fresh ⟨⟨expire, s.g_id⟩, func, r⟩ s.timer hfresh
  have hp := setEmplace_perm ⟨⟨expire, s.g_id⟩, func, r⟩ s.timer
  simp only [h1, if_true] at hp
  refine ⟨h1, h2, hp, (hp.map _).nodup_iff.mpr ?_, ?_⟩
  · simp only [List.map_cons, List.nodup_cons, List.mem_map, not_exists, not_and]
    exact ⟨fun y hy => hfresh y hy, hs.1⟩
  · intro e he
    rcases List.mem_cons.mp (hp.mem_iff.mp he) with h | h
    · rw [h]; simp
    · have := hs.2 e h
      simp only
      omega

/-- The handle returned by `addTimer` on a store with consistent ids. -/
theorem addTimer_handle (s : Timer) (now msec : Int) (func : Callback) (r : Int)
    (hs : idsOk s) : (addTimer s now msec func r).1 = ⟨now + msec, s.g_id⟩ := by
  obtain ⟨_, h2, _, _⟩ := emplace_counter_id s (now + msec) func r hs
  simp only [addTimer, h2]

/-- One call keeps the ids consistent, advances the counter by the number of ids it hands out,
hands out nothing or the counter value, and leaves only entries whose id was live before or was
just handed out. -/
theorem set_issued_step (s : Timer) (op : Op) (hs : idsOk s) :
    idsOk (step s op) ∧
    (step s op).g_id = s.g_id + (stepIssued s op).length ∧
    (stepIssued s op = [] ∨ stepIssued s op = [s.g_id]) ∧
    ∀ e ∈ (step s op).timer, (∃ e0 ∈ s.timer, e0.id = e.id) ∨ e.id ∈ stepIssued s op := by
  cases op with
  | add now msec func r =>
    obtain ⟨_, _, hp, hok⟩ := emplace_counter_id s (now + msec) func r hs
    have hh := addTimer_handle s now msec func r hs
    refine ⟨hok, by simp [step, stepIssued, addTimer], Or.inr (by simp [stepIssued, hh]), ?_⟩
    intro e he
    rcases List.mem_cons.mp (hp.mem_iff.mp he) with h | h
    · right; simp [stepIssued, hh, h]
    · exact Or.inl ⟨e, h, rfl⟩
  | del node =>
    have hsub : (step s (Op.del node)).timer.Sublist s.timer ∧
        (step s (Op.del node)).g_id = s.g_id := by
      simp only [step, delTimer]
      cases setFind node s.timer with
      | none => exact ⟨List.Sublist.refl _, rfl⟩
      | some i => exact ⟨List.eraseIdx_sublist _ _, rfl⟩
    refine ⟨idsOk_of_sublist _ _ _ _ hsub.1 (le_of_eq hsub.2.symm) hs,
      by simp [stepIssued, hsub.2], Or.inl rfl, ?_⟩
    intro e he
    exact Or.inl ⟨e, hsub.1.subset he, rfl⟩
  | check now now2 =>
    obtain ⟨timer, g⟩ := s
    cases timer with
    | nil =>
      simp only [step, checkTimer, stepIssued]
      exact ⟨hs, by simp, by simp, fun e he => Or.inl ⟨e, he, rfl⟩⟩
    | cons first rest =>
      by_cases hdue : first.expire ≤ now
      · by_cases hr : first.«repeat» = 1
        · simp only [step, checkTimer, stepIssued, hdue, hr, if_true, ne_eq, not_true_eq_false,
            and_false, if_false, List.eraseIdx_cons_zero]
          refine ⟨idsOk_of_sublist _ _ _ _ (List.sublist_cons_self _ _) (le_refl _) hs,
            by simp, by simp, fun e he => Or.inl ⟨e, List.mem_cons_of_mem _ he, rfl⟩⟩
        · obtain ⟨_, _, hp, hok⟩ := emplace_counter_id ⟨first :: rest, g⟩ (now2 + 1000)
            Callback.checkTimerLambda (first.«repeat» - 1) hs
          have hh := addTimer_handle ⟨first :: rest, g⟩ now2 1000
            Callback.checkTimerLambda (first.«repeat» - 1) hs
          simp only [step, checkTimer, stepIssued, hdue, hr, if_true, ne_eq, not_false_eq_true,
            and_self, hh]
          refine ⟨idsOk_of_sublist _ _ _ _ (List.eraseIdx_sublist _ _) (le_refl _) hok,
            by simp, by simp, ?_⟩
          intro e he
          rcases List.mem_cons.mp (hp.mem_iff.mp ((List.eraseIdx_sublist _ _).subset he))
            with h | h
          · right; simp [h]
          · exact Or.inl ⟨e, h, rfl⟩
      · simp only [step, checkTimer, stepIssued, hdue, if_false, false_and]
        exact ⟨hs, by simp, by simp, fun e he => Or.inl ⟨e, he, rfl⟩⟩

/-- The ids handed out by a run from a store with consistent ids and counter `g` are
`g, g + 1, ...`; the counter ends at `g` plus their number, the ids stay consistent, and every
entry live at the end has an id that was live at the start or was handed out. -/
theorem set_issued_run (ops : List Op) : ∀ (s : Timer), idsOk s →
    idsOk (run s ops) ∧
    runIssued s ops
      = (List.range (runIssued s ops).length).map (fun (i : Nat) => s.g_id + (i : Int)) ∧
    (run s ops).g_id = s.g_id + (runIssued s ops).length ∧
    ∀ e ∈ (run s ops).timer, (∃ e0 ∈ s.timer, e0.id = e.id) ∨ e.id ∈ runIssued s ops := by
  induction ops with
  | nil =>
    intro s hs
    exact ⟨hs, by simp [runIssued], by simp [run, runIssued],
      fun e he => Or.inl ⟨e, he, rfl⟩⟩
  | cons op ops ih =>
    intro s hs
    obtain ⟨h0, h1, h2, h3⟩ := set_issued_step s op hs
    obtain ⟨i0, i1, i2, i3⟩ := ih (step s op) h0
    have hrun : run s (op :: ops) = run (step s op) ops := rfl
    have hmem : ∀ e ∈ (run s (op :: ops)).timer,
        (∃ e0 ∈ s.timer, e0.id = e.id) ∨ e.id ∈ runIssued s (op :: ops) := by
      intro e he
      rw [hrun] at he
      simp only [runIssued, List.mem_append]
      rcases i3 e he with ⟨e0, he0, hid⟩ | h
      · rcases h3 e0 he0 with ⟨e1, he1, hid1⟩ | h
        · exact Or.inl ⟨e1, he1, by rw [hid1, hid]⟩
        · exact Or.inr (Or.inl (by rw [← hid]; exact h))
      · exact Or.inr (Or.inr h)
    rcases h2 with h2 | h2
    · simp only [h2, List.length_nil, Nat.cast_zero, add_zero] at h1
      simp only [runIssued, h2, List.nil_append] at hmem ⊢
      rw [h1] at i1 i2
      exact ⟨by rw [hrun]; exact i0, i1, by rw [hrun]; exact i2, hmem⟩
    · simp only [h2, List.length_singleton, Nat.cast_one] at h1
      simp only [runIssued, h2, List.singleton_append, List.length_cons] at hmem ⊢
      rw [h1] at i1 i2
      refine ⟨by rw [hrun]; exact i0, ?_, ?_, hmem⟩
      · rw [← range_shift, ← i1]
      · rw [hrun, i2]; push_cast; omega

end Timer

/-- A list of the form `0, 1, ..., n - 1` is strictly increasing. -/
theorem range_cast_pairwise_lt (n : Nat) :
    ((List.range n).map (fun (i : Nat) => (0 : Int) + (i : Int))).Pairwise (· < ·) := by
  rw [List.pairwise_map]
  refine (List.pairwise_lt_range n).imp ?_
  intro a b h
  omega

/-- C14: in each engine, over every sequence of `addTimer`, `delTimer` and `checkTimer` calls
from a fresh process (empty store, counter 0), the ids handed out are 0, 1, 2, ... in this order
(the nested `addTimer` of the ordered-set engine's `checkTimer` included), hence strictly
increasing and never repeated; the counter equals their number; every live entry has an id
below the counter that was handed out; and the live entries have pairwise distinct ids. -/
theorem ids_unique_and_increasing :
    (∀ ops : List HeapTimer.Op,
      HeapTimer.runIssued HeapTimer.empty ops
        = (List.range (HeapTimer.runIssued HeapTimer.empty ops).length).map
            (fun (i : Nat) => (i : Int)) ∧
      (HeapTimer.runIssued HeapTimer.empty ops).Pairwise (· < ·) ∧
      (HeapTimer.run HeapTimer.empty ops).g_id
        = (HeapTimer.runIssued HeapTimer.empty ops).length ∧
      (∀ e ∈ (HeapTimer.run HeapTimer.empty ops).timer,
        e.id < (HeapTimer.run HeapTimer.empty ops).g_id ∧
        e.id ∈ HeapTimer.runIssued HeapTimer.empty ops) ∧
      ((HeapTimer.run HeapTimer.empty ops).timer.map (fun e => e.id)).Nodup) ∧
    (∀ ops : List Timer.Op,
      Timer.runIssued Timer.empty ops
        = (List.range (Timer.runIssued Timer.empty ops).length).map
            (fun (i : Nat) => (i : Int)) ∧
      (Timer.runIssued Timer.empty ops).Pairwise (· < ·) ∧
      (Timer.run Timer.empty ops).g_id = (Timer.runIssued Timer.empty ops).length ∧
      (∀ e ∈ (Timer.run Timer.empty ops).timer,
        e.id < (Timer.run Timer.empty ops).g_id ∧
        e.id ∈ Timer.runIssued Timer.empty ops) ∧
      ((Timer.run Timer.empty ops).timer.map (fun e => e.id)).Nodup) := by
  constructor
  · intro ops
    have h0 : HeapTimer.idsOk HeapTimer.empty := ⟨by simp [HeapTimer.empty], by simp [HeapTimer.empty]⟩
    obtain ⟨h1, h2, h3⟩ := HeapTimer.issued_run ops HeapTimer.empty h0
    have hok := HeapTimer.idsOk_run ops HeapTimer.empty h0
    have hp := range_cast_pairwise_lt (HeapTimer.runIssued HeapTimer.empty ops).length
    simp only [HeapTimer.empty, zero_add] at h1 h2 h3 hp ⊢
    refine ⟨h1, by rw [h1]; simpa using hp, h2, ?_, hok.1⟩
    intro e he
    refine ⟨hok.2 e he, ?_⟩
    rcases h3 e he with ⟨e0, he0, _⟩ | h
    · simp at he0
    · exact h
  · intro ops
    have h0 : Timer.idsOk Timer.empty := ⟨by simp [Timer.empty], by simp [Timer.empty]⟩
    obtain ⟨hok, h1, h2, h3⟩ := Timer.set_issued_run ops Timer.empty h0
    have hp := range_cast_pairwise_lt (Timer.runIssued Timer.empty ops).length
    simp only [Timer.empty, zero_add] at h1 h2 h3 hp ⊢
    refine ⟨h1, by rw [h1]; simpa using hp, h2, ?_, hok.1⟩
    intro e he
    refine ⟨hok.2 e he, ?_⟩
    rcases h3 e he with ⟨e0, he0, _⟩ | h
    · simp at he0
    · exact h

/-! ## The sift loops restore the heap order -/

namespace HeapTimer

/-- A sift-up from position `son` of a vector that is a heap except at `son` gives a heap. -/
theorem siftUpLoop_isHeap : ∀ (fuel : Nat) (t : List TimerNode) (son : Nat),
    son < t.length → son ≤ fuel → heapExceptUp t son → isHeap (siftUpLoop fuel t son)
  | 0, t, son, _, hf, hinv => by
    have h0 : son = 0 := by omega
    subst h0
    intro i hi hpos
    exact hinv.1 i hi hpos (by omega)
  | fuel + 1, t, son, hlt, hf, hinv => by
    by_cases h0 : 0 < son
    · have hp : (son - 1) / 2 < t.length := by omega
      by_cases hc : (nodeAt t ((son - 1) / 2)).expire < (nodeAt t son).expire
      · simp only [siftUpLoop, h0, hc, if_true]
        intro i hi hpos
        by_cases his : i = son
        · rw [his]; exact le_of_lt hc
        · exact hinv.1 i hi hpos his
      · simp only [siftUpLoop, h0, hc, if_true, if_false]
        have hle : (nodeAt t son).expire ≤ (nodeAt t ((son - 1) / 2)).expire := by omega
        refine siftUpLoop_isHeap fuel _ _ (by rw [swapAt_length]; exact hp) (by omega) ?_
        have hE : ∀ i, nodeAt (swapAt t son ((son - 1) / 2)) i
            = if i = (son - 1) / 2 then nodeAt t son
              else if i = son then nodeAt t ((son - 1) / 2) else nodeAt t i :=
          fun i => nodeAt_swapAt t son ((son - 1) / 2) i hlt hp
        constructor
        · intro i hi hpos hip
          rw [swapAt_length] at hi
          rw [hE, hE]
          by_cases his : i = son
          · subst his
            simp only [if_true, hip, if_false]
            exact hle
          · simp only [hip, his, if_false]
            by_cases hq : (i - 1) / 2 = (son - 1) / 2
            · simp only [hq, if_true]
              have := hinv.1 i hi hpos his
              rw [hq] at this
              exact le_trans hle this
            · by_cases hq2 : (i - 1) / 2 = son
              · have hsp : ¬ son = (son - 1) / 2 := by omega
                rw [hq2]
                simp only [hsp, if_false, if_true]
                exact hinv.2 i hi hpos hq2 h0
              · simp only [hq, hq2, if_false]
                exact hinv.1 i hi hpos his
        · intro c hc1 hcpos hcp hppos
          rw [swapAt_length] at hc1
          rw [hE, hE]
          have hg1 : ¬ ((son - 1) / 2 - 1) / 2 = (son - 1) / 2 := by omega
          have hg2 : ¬ ((son - 1) / 2 - 1) / 2 = son := by omega
          have hcp2 : ¬ c = (son - 1) / 2 := by omega
          have hpar := hinv.1 ((son - 1) / 2) hp hppos (by omega)
          simp only [hg1, hg2, hcp2, if_false]
          by_cases hcs : c = son
          · simp only [hcs, if_true]
            exact hpar
          · simp only [hcs, if_false]
            have := hinv.1 c hc1 hcpos hcs
            rw [hcp] at this
            exact le_trans hpar this
    · simp only [siftUpLoop, h0, if_false]
      intro i hi hpos
      exact hinv.1 i hi hpos (by omega)

/-- A sift-down from position `p` over the whole vector, which is a heap except below `p`,
gives a heap. -/
theorem siftDownLoop_isHeap : ∀ (fuel : Nat) (t : List TimerNode) (p son e : Nat),
    son = 2 * p + 1 → e + 1 = t.length → p < t.length → e + 1 - son ≤ fuel →
    heapExceptDown t p → isHeap (siftDownLoop fuel t p son e)
  | 0, t, p, son, e, hson, he, _, hf, hinv => by
    show isHeap t
    intro i hi hpos
    exact hinv.1 i hi hpos (by omega)
  | fuel + 1, t, p, son, e, hson, he, hpl, hf, hinv => by
    unfold siftDownLoop
    by_cases hs : son ≤ e
    · simp only [hs, if_true]
      have key : ∀ son1 sib, son1 ≤ e → (son1 - 1) / 2 = p → 0 < son1 →
          (∀ i, i < t.length → 0 < i → (i - 1) / 2 = p → i ≠ son1 → i = sib) →
          (sib < t.length → (nodeAt t son1).expire ≤ (nodeAt t sib).expire) →
          isHeap (if (nodeAt t son1).expire > (nodeAt t p).expire then t
            else siftDownLoop fuel (swapAt t p son1) son1 (2 * son1 + 1) e) := by
        intro son1 sib h1 h2 h3 hsib hsible
        have hs1 : son1 < t.length := by omega
        by_cases hc : (nodeAt t son1).expire > (nodeAt t p).expire
        · simp only [hc, if_true]
          intro i hi hpos
          by_cases hq : (i - 1) / 2 = p
          · rw [hq]
            by_cases his : i = son1
            · rw [his]; exact le_of_lt hc
            · have := hsib i hi hpos hq his
              subst this
              have := hsible hi
              omega
          · exact hinv.1 i hi hpos hq
        · simp only [hc, if_false]
          have hle : (nodeAt t son1).expire ≤ (nodeAt t p).expire := by omega
          refine siftDownLoop_isHeap fuel _ son1 _ e rfl (by rw [swapAt_length]; exact he)
            (by rw [swapAt_length]; exact hs1) (by omega) ?_
          have hE : ∀ i, nodeAt (swapAt t p son1) i
              = if i = son1 then nodeAt t p
                else if i = p then nodeAt t son1 else nodeAt t i :=
            fun i => nodeAt_swapAt t p son1 i hpl hs1
          have hps : ¬ p = son1 := by omega
          constructor
          · intro i hi hpos hq
            rw [swapAt_length] at hi
            rw [hE, hE]
            simp only [hq, if_false]
            by_cases his : i = son1
            · subst his
              simp only [if_true, h2]
              exact hle
            · simp only [his, if_false]
              by_cases hip : i = p
              · subst hip
                have hq2 : ¬ (i - 1) / 2 = i := by omega
                simp only [hq2, if_false, if_true]
                exact hinv.2 son1 hs1 h3 h2 hpos
              · simp only [hip, if_false]
                by_cases hqp : (i - 1) / 2 = p
                · simp only [hqp, if_true]
                  have := hsib i hi hpos hqp his
                  subst this
                  exact hsible hi
                · simp only [hqp, if_false]
                  exact hinv.1 i hi hpos hqp
          · intro c hc1 hcpos hcp _
            rw [swapAt_length] at hc1
            rw [hE, hE]
            have hc2 : ¬ c = son1 := by omega
            have hc3 : ¬ c = p := by omega
            simp only [h2, hps, if_true, if_false, hc2, hc3]
            have := hinv.1 c hc1 hcpos (by omega)
            rw [hcp] at this
            exact this
      by_cases hpick : son < e ∧ (nodeAt t (son + 1)).expire < (nodeAt t son).expire
      · simp only [hpick, and_self, if_true]
        refine key (son + 1) son (by omega) (by omega) (by omega) ?_ ?_
        · intro i _ _ hq hne; omega
        · intro _; exact le_of_lt hpick.2
      · simp only [hpick, if_false]
        refine key son (son + 1) hs (by omega) (by omega) ?_ ?_
        · intro i _ _ hq hne; omega
        · intro hsl
          have : son < e := by omega
          have hnot : ¬ (nodeAt t (son + 1)).expire < (nodeAt t son).expire :=
            fun h => hpick ⟨this, h⟩
          omega
    · simp only [hs, if_false]
      intro i hi hpos
      exact hinv.1 i hi hpos (by omega)

end HeapTimer

namespace HeapTimer

theorem nodeAt_append_left (t : List TimerNode) (x : TimerNode) (i : Nat) (h : i < t.length) :
    nodeAt (t ++ [x]) i = nodeAt t i := by
  unfold nodeAt
  simp only [List.getD_eq_getElem?_getD, List.getElem?_append_left h]

theorem nodeAt_cons_pos (a b : TimerNode) (rest : List TimerNode) (i : Nat) (h : 0 < i) :
    nodeAt (a :: rest) i = nodeAt (b :: rest) i := by
  cases i with
  | zero => omega
  | succ j => simp [nodeAt]

theorem nodeAt_dropLast (t : List TimerNode) (i : Nat) (h : i < t.length - 1) :
    nodeAt t.dropLast i = nodeAt t i := by
  unfold nodeAt
  simp only [List.getD_eq_getElem?_getD, List.dropLast_eq_take, List.getElem?_take_of_lt h]

/-- Erasing the last slot of a heap leaves a heap. -/
theorem isHeap_dropLast (t : List TimerNode) (h : isHeap t) : isHeap t.dropLast := by
  intro i hi hpos
  rw [List.length_dropLast] at hi
  rw [nodeAt_dropLast t i hi, nodeAt_dropLast t _ (by omega)]
  exact h i (by omega) hpos

/-- A heap whose root is overwritten by any node is a heap except below the root. -/
theorem heapExceptDown_root (a b : TimerNode) (rest : List TimerNode)
    (h : isHeap (a :: rest)) : heapExceptDown (b :: rest) 0 := by
  constructor
  · intro i hi hpos hq
    rw [nodeAt_cons_pos b a rest i hpos, nodeAt_cons_pos b a rest _ (by omega)]
    exact h i (by simpa using hi) hpos
  · intro c _ _ _ h0
    omega

/-- The heap engine's `addTimer` keeps the min-heap property. -/
theorem addTimer_isHeap (s : HeapTimer) (now msec : Int) (func : Callback) (r : Int)
    (h : isHeap s.timer) : isHeap (addTimer s now msec func r).2.timer := by
  simp only [addTimer, siftUp, List.length_append, List.length_singleton, Nat.add_sub_cancel]
  refine siftUpLoop_isHeap _ _ _ (by simp) (le_refl _) ?_
  constructor
  · intro i hi hpos hne
    have hi2 : i < s.timer.length := by
      simp only [List.length_append, List.length_singleton] at hi
      omega
    rw [nodeAt_append_left _ _ i hi2, nodeAt_append_left _ _ _ (by omega)]
    exact h i hi2 hpos
  · intro c hc _ hcp _
    simp only [List.length_append, List.length_singleton] at hc
    omega

/-- The rescheduling branch of `checkTimer`: the vector after the root was given a new expire
and sifted down from index 0 is a heap. -/
theorem siftDown_root_isHeap (a b : TimerNode) (rest : List TimerNode)
    (h : isHeap (a :: rest)) : isHeap (siftDown (b :: rest) 0 rest.length) := by
  unfold siftDown
  exact siftDownLoop_isHeap _ _ 0 _ _ rfl (by simp) (by simp) (by omega)
    (heapExceptDown_root a b rest h)

/-- The call `delTimer` with the id of the root, on a vector with pairwise distinct ids:
the root is overwritten by the last node, the vector sifted down from index 0 over its whole
length, and the last slot erased; no later index matches. -/
theorem delTimer_root (root : TimerNode) (rest : List TimerNode) (g : Int)
    (hn : ((root :: rest).map (fun x => x.id)).Nodup) :
    (delTimer ⟨root :: rest, g⟩ root.id).2.timer
      = (siftDown (nodeAt (root :: rest) rest.length :: rest) 0 rest.length).dropLast := by
  have hit := delTimer_iteration_perm (root :: rest) 0 (by simp)
  simp only [List.length_cons, Nat.add_sub_cancel, List.set_cons_zero,
    List.eraseIdx_cons_zero] at hit
  have hno : ∀ x ∈ (siftDown (nodeAt (root :: rest) rest.length :: rest) 0
      rest.length).dropLast, x.id ≠ root.id := by
    intro x hx hxe
    simp only [List.map_cons, List.nodup_cons, List.mem_map, not_exists, not_and] at hn
    exact hn.1 x (hit.mem_iff.mp hx) hxe
  simp only [delTimer, List.length_cons, delTimerLoop, Nat.zero_lt_succ, if_true,
    Nat.add_sub_cancel, List.set_cons_zero]
  have h0 : (nodeAt (root :: rest) 0).id = root.id := by simp [nodeAt]
  rw [if_pos h0]
  exact delTimerLoop_of_no_match root.id _ _ _ hno

/-- The heap engine's `checkTimer` keeps the min-heap property on a store with pairwise
distinct ids. -/
theorem checkTimer_isHeap (s : HeapTimer) (now : Int)
    (hn : (s.timer.map (fun x => x.id)).Nodup) (h : isHeap s.timer) :
    isHeap (checkTimer s now).store.timer := by
  obtain ⟨timer, g⟩ := s
  cases timer with
  | nil => simpa [checkTimer] using h
  | cons root rest =>
    by_cases hdue : root.expire ≤ now
    · by_cases hr : root.«repeat» - 1 = 0
      · simp only [checkTimer, hdue, if_true]
        rw [if_pos hr]
        have hd := delTimer_root { root with «repeat» := root.«repeat» - 1 } rest g
          (by simpa using hn)
        simp only at hd ⊢
        rw [hd]
        exact isHeap_dropLast _ (siftDown_root_isHeap root _ rest h)
      · simp only [checkTimer, hdue, hr, if_true, if_false, List.length_cons,
          Nat.add_sub_cancel]
        exact siftDown_root_isHeap root _ rest h
    · simpa [checkTimer, hdue] using h

/-- C17: on a store with pairwise distinct ids and the min-heap property, the vector has the
min-heap property again after `addTimer` (append, sift-up from the last index) and after
`checkTimer`: in the reschedule branch the vector is the old one with the root's expire advanced
and repeat decreased, sifted down from index 0; in the exhaustion branch it is the old one with
the root overwritten by the last node, sifted down from index 0 over a range that still
includes the last slot, with the last slot erased afterwards. -/
theorem addTimer_checkTimer_keep_heap (s : HeapTimer)
    (hn : (s.timer.map (fun x => x.id)).Nodup) (hh : isHeap s.timer) :
    (∀ (now msec : Int) (func : Callback) (r : Int),
      (addTimer s now msec func r).2.timer
        = siftUp (s.timer ++ [⟨⟨now + msec, s.g_id⟩, func, r, msec⟩]) s.timer.length ∧
      isHeap (addTimer s now msec func r).2.timer) ∧
    (∀ now : Int, isHeap (checkTimer s now).store.timer) ∧
    (∀ (now : Int) (root : TimerNode) (rest : List TimerNode), s.timer = root :: rest →
      root.expire ≤ now → root.«repeat» ≠ 1 →
      (checkTimer s now).store.timer
        = siftDown (⟨⟨root.expire + root.msec, root.id⟩, root.func, root.«repeat» - 1,
            root.msec⟩ :: rest) 0 rest.length ∧
      isHeap (siftDown (⟨⟨root.expire + root.msec, root.id⟩, root.func, root.«repeat» - 1,
            root.msec⟩ :: rest) 0 rest.length)) ∧
    (∀ (now : Int) (root : TimerNode) (rest : List TimerNode), s.timer = root :: rest →
      root.expire ≤ now → root.«repeat» = 1 →
      (checkTimer s now).store.timer
        = (siftDown (nodeAt (⟨root.toNodeBase, root.func, 0, root.msec⟩ :: rest) rest.length
            :: rest) 0 rest.length).dropLast ∧
      isHeap (siftDown (nodeAt (⟨root.toNodeBase, root.func, 0, root.msec⟩ :: rest)
            rest.length :: rest) 0 rest.length) ∧
      isHeap (siftDown (nodeAt (⟨root.toNodeBase, root.func, 0, root.msec⟩ :: rest)
            rest.length :: rest) 0 rest.length).dropLast) := by
  refine ⟨?_, fun now => checkTimer_isHeap s now hn hh, ?_, ?_⟩
  · intro now msec func r
    refine ⟨?_, addTimer_isHeap s now msec func r hh⟩
    simp [addTimer]
  · intro now root rest hs hdue hr
    have hr0 : ¬ (root.«repeat» - 1 = 0) := by omega
    rw [hs] at hh
    refine ⟨?_, siftDown_root_isHeap root _ rest hh⟩
    simp only [checkTimer, hs, hdue, hr0, if_true, if_false, List.length_cons,
      Nat.add_sub_cancel]
  · intro now root rest hs hdue hr
    have hr0 : root.«repeat» - 1 = 0 := by omega
    rw [hs] at hh hn
    have hd := delTimer_root ⟨root.toNodeBase, root.func, 0, root.msec⟩ rest s.g_id
      (by simpa using hn)
    refine ⟨?_, siftDown_root_isHeap root _ rest hh,
      isHeap_dropLast _ (siftDown_root_isHeap root _ rest hh)⟩
    simp only [checkTimer, hs, hdue, if_true]
    rw [if_pos hr0]
    simp only [hr0]
    exact hd

/-- C17 at the store of `main` (five entries, a heap with distinct ids): still a heap after one
more `addTimer` and after a `checkTimer` at tick 600, which reschedules the root (delay 500,
repeat 2). -/
theorem addTimer_checkTimer_keep_heap_witness :
    (mainStore.timer.map (fun x => x.id)).Nodup ∧ isHeap mainStore.timer ∧
    isHeap (addTimer mainStore 0 10000 (Callback.user 5) 1).2.timer ∧
    isHeap (checkTimer mainStore 600).store.timer :=
  have h := addTimer_checkTimer_keep_heap mainStore (by decide) (by decide)
  ⟨by decide, by decide, (h.1 0 10000 (Callback.user 5) 1).2, h.2.1 600⟩

end HeapTimer

/-! ## The two engines on one-shot timers -/

theorem operatorLt_iff (a b : NodeBase) : operatorLt a b = true ↔
    (a.expire < b.expire ∨ (a.expire = b.expire ∧ a.id < b.id)) := by
  unfold operatorLt
  by_cases h1 : a.expire < b.expire
  · simp [h1]
  · by_cases h2 : a.expire > b.expire
    · simp [h1, h2]; omega
    · simp [h1, h2]
      intro _
      omega

theorem operatorLt_trans (a b c : NodeBase) (hab : operatorLt a b = true)
    (hbc : operatorLt b c = true) : operatorLt a c = true := by
  rw [operatorLt_iff] at hab hbc ⊢
  omega

/-- Emplacing into an ascending element list leaves an ascending element list. -/
theorem Timer.setEmplace_isSet (x : Timer.TimerNode) : ∀ (l : List Timer.TimerNode),
    Timer.isSet l → Timer.isSet (Timer.setEmplace x l).elems
  | [], _ => by simp [Timer.setEmplace, Timer.isSet]
  | y :: ys, h => by
    have hy := List.pairwise_cons.mp h
    have ih := Timer.setEmplace_isSet x ys hy.2
    unfold Timer.setEmplace
    by_cases h1 : operatorLt x.toNodeBase y.toNodeBase = true
    · simp only [h1, if_true]
      refine List.pairwise_cons.mpr ⟨?_, h⟩
      intro z hz
      rcases List.mem_cons.mp hz with hz | hz
      · rw [hz]; exact h1
      · exact operatorLt_trans _ _ _ h1 (hy.1 z hz)
    · by_cases h2 : operatorLt y.toNodeBase x.toNodeBase = true
      · simp only [h1, h2, if_true, if_false]
        refine List.pairwise_cons.mpr ⟨?_, ih⟩
        intro w hw
        have hp := Timer.setEmplace_perm x ys
        have hw2 : w = x ∨ w ∈ ys := by
          by_cases h3 : (Timer.setEmplace x ys).inserted = true
          · simp only [h3, if_true] at hp
            exact List.mem_cons.mp (hp.mem_iff.mp hw)
          · simp only [h3, if_false] at hp
            exact Or.inr (hp.mem_iff.mp hw)
        rcases hw2 with hw2 | hw2
        · rw [hw2]; exact h2
        · exact hy.1 w hw2
      · simpa [h1, h2] using h

/-- Along a run of one-shot timers the root of the heap and the first element of the set have
the same expire. -/
theorem oneShotRel_first (h : HeapTimer) (t : Timer) (hrel : oneShotRel h t)
    (hr : HeapTimer.TimerNode) (hrest : List HeapTimer.TimerNode)
    (tf : Timer.TimerNode) (trest : List Timer.TimerNode)
    (hh : h.timer = hr :: hrest) (ht : t.timer = tf :: trest) : hr.expire = tf.expire := by
  obtain ⟨_, hheap, _, _, hset, _, hperm⟩ := hrel
  rw [hh] at hheap
  rw [ht] at hset
  rw [hh, ht] at hperm
  have h1 : hr.expire ≤ tf.expire := by
    have hm : tf.expire ∈ (hr :: hrest).map (fun e => e.expire) :=
      hperm.mem_iff.mpr (by simp)
    obtain ⟨e, he, hee⟩ := List.mem_map.mp hm
    obtain ⟨i, hi, rfl⟩ := List.getElem_of_mem he
    have := HeapTimer.isHeap_root_le (hr :: hrest) hheap i hi
    rw [HeapTimer.nodeAt_of_lt _ i hi] at this
    simp only [HeapTimer.nodeAt, List.getD_cons_zero] at this
    rw [← hee]
    exact this
  have h2 : tf.expire ≤ hr.expire := by
    have hm : hr.expire ∈ (tf :: trest).map (fun e => e.expire) :=
      hperm.mem_iff.mp (by simp)
    obtain ⟨e, he, hee⟩ := List.mem_map.mp hm
    rcases List.mem_cons.mp he with he | he
    · rw [← hee, he]
    · rw [← hee]
      exact operatorLt_expire_le _ _ ((List.pairwise_cons.mp hset).1 e he)
  omega

/-- One call gives the same observation on both engines and keeps them related. -/
theorem oneShotRel_step (h : HeapTimer) (t : Timer) (hrel : oneShotRel h t) (op : OneShotOp) :
    (HeapTimer.stepObs h op).1 = (Timer.stepObs t op).1 ∧
    oneShotRel (HeapTimer.stepObs h op).2 (Timer.stepObs t op).2 := by
  have hrel0 := hrel
  obtain ⟨hids, hheap, hrep, tids, tset, trep, hperm⟩ := hrel
  cases op with
  | add now msec func =>
    refine ⟨rfl, ?_⟩
    obtain ⟨_, _, hp⟩ := HeapTimer.addTimer_perm h now msec func 1
    obtain ⟨_, _, tp, tok⟩ := Timer.emplace_counter_id t (now + msec) func 1 tids
    refine ⟨HeapTimer.idsOk_step h (HeapTimer.Op.add now msec func 1) hids,
      HeapTimer.addTimer_isHeap h now msec func 1 hheap, ?_, tok,
      Timer.setEmplace_isSet _ _ tset, ?_, ?_⟩
    · intro e he
      rcases List.mem_append.mp (hp.mem_iff.mp he) with h1 | h1
      · exact hrep e h1
      · simp only [List.mem_singleton] at h1
        rw [h1]
    · intro e he
      rcases List.mem_cons.mp (tp.mem_iff.mp he) with h1 | h1
      · rw [h1]
      · exact trep e h1
    · refine ((hp.map _).trans ?_).trans (tp.map _).symm
      simp only [List.map_append, List.map_cons, List.map_nil]
      exact (List.perm_append_singleton _ _).trans (hperm.cons _)
  | sleep now =>
    refine ⟨?_, hrel0⟩
    simp only [HeapTimer.stepObs, Timer.stepObs, HeapTimer.timeToSleep, Timer.timeToSleep]
    cases hh : h.timer with
    | nil =>
      cases ht : t.timer with
      | nil => rfl
      | cons tf trest =>
        rw [hh, ht] at hperm
        simpa using hperm.length_eq
    | cons hr hrest =>
      cases ht : t.timer with
      | nil =>
        rw [hh, ht] at hperm
        simpa using hperm.length_eq
      | cons tf trest =>
        simp only [oneShotRel_first h t hrel0 hr hrest tf trest hh ht]
  | check now now2 =>
    cases hh : h.timer with
    | nil =>
      cases ht : t.timer with
      | nil =>
        simp only [HeapTimer.stepObs, Timer.stepObs, HeapTimer.checkTimer, Timer.checkTimer,
          hh, ht]
        exact ⟨rfl, hrel0⟩
      | cons tf trest =>
        rw [hh, ht] at hperm
        simpa using hperm.length_eq
    | cons hr hrest =>
      cases ht : t.timer with
      | nil =>
        rw [hh, ht] at hperm
        simpa using hperm.length_eq
      | cons tf trest =>
        have hfirst := oneShotRel_first h t hrel0 hr hrest tf trest hh ht
        have hr1 : hr.«repeat» = 1 := hrep hr (by rw [hh]; simp)
        have tr1 : tf.«repeat» = 1 := trep tf (by rw [ht]; simp)
        by_cases hdue : hr.expire ≤ now
        · have tdue : tf.expire ≤ now := by omega
          rcases HeapTimer.checkTimer_cases h now with ⟨hnot, _⟩ | ⟨root, rest, hst, _, hret,
            hcalls, hg, hbr⟩
          · have := hnot hr (by rw [hh]; simp)
            omega
          · rw [hh] at hst
            simp only [List.cons.injEq] at hst
            obtain ⟨e1, e2⟩ := hst
            subst e1 e2
            have hp : (HeapTimer.checkTimer h now).store.timer.Perm hrest := by
              rcases hbr with ⟨_, hp⟩ | ⟨hne, _⟩
              · exact hp hids.1
              · exact absurd hr1 hne
            have tstore : Timer.checkTimer t now now2
                = ⟨true, ⟨trest, t.g_id⟩, [tf]⟩ := by
              simp [Timer.checkTimer, ht, tdue, tr1]
            simp only [HeapTimer.stepObs, Timer.stepObs, hret, hcalls, tstore, List.map_cons,
              List.map_nil, hfirst, true_and]
            refine ⟨HeapTimer.idsOk_step h (HeapTimer.Op.check now) hids,
              HeapTimer.checkTimer_isHeap h now hids.1 hheap, ?_, ?_, ?_, ?_, ?_⟩
            · intro e he
              exact hrep e (by rw [hh]; exact List.mem_cons_of_mem _ (hp.mem_iff.mp he))
            · exact Timer.idsOk_of_sublist trest t.timer t.g_id t.g_id
                (by rw [ht]; exact List.sublist_cons_self _ _) (le_refl _) tids
            · rw [ht] at tset
              exact (List.pairwise_cons.mp tset).2
            · intro e he
              exact trep e (by rw [ht]; exact List.mem_cons_of_mem _ he)
            · rw [hh, ht] at hperm
              simp only [List.map_cons, hfirst] at hperm
              exact (hp.map _).trans hperm.cons_inv
        · have tdue : ¬ tf.expire ≤ now := by omega
          have hstore : HeapTimer.checkTimer h now = ⟨false, h, []⟩ := by
            simp [HeapTimer.checkTimer, hh, hdue]
          have tstore : Timer.checkTimer t now now2 = ⟨false, t, []⟩ := by
            simp [Timer.checkTimer, ht, tdue]
          simp only [HeapTimer.stepObs, Timer.stepObs, hstore, tstore, List.map_nil, true_and]
          exact hrel0

/-- A run gives the same observations on both engines and keeps them related. -/
theorem oneShotRel_run (ops : List OneShotOp) : ∀ (h : HeapTimer) (t : Timer),
    oneShotRel h t →
    (HeapTimer.runObs h ops).1 = (Timer.runObs t ops).1 ∧
    oneShotRel (HeapTimer.runObs h ops).2 (Timer.runObs t ops).2 := by
  induction ops with
  | nil => intro h t hrel; exact ⟨rfl, hrel⟩
  | cons op ops ih =>
    intro h t hrel
    obtain ⟨h1, h2⟩ := oneShotRel_step h t hrel op
    obtain ⟨h3, h4⟩ := ih _ _ h2
    simp only [HeapTimer.runObs, Timer.runObs]
    exact ⟨by rw [h1, h3], h4⟩

/-- C16: for every sequence of `addTimer` calls with repeat 1, `checkTimer` calls and
`timeToSleep` calls, run with the same clock readings on an initially empty heap engine and an
initially empty ordered-set engine, the observations agree call by call: every `checkTimer`
returns the same `bool` and fires an entry with the same expire, every `timeToSleep` returns the
same value; and after the run the live expires of the two stores are the same multiset. -/
theorem engines_agree_on_one_shot_timers (ops : List OneShotOp) :
    (HeapTimer.runObs HeapTimer.empty ops).1 = (Timer.runObs Timer.empty ops).1 ∧
    ((HeapTimer.runObs HeapTimer.empty ops).2.timer.map (fun e => e.expire)).Perm
      ((Timer.runObs Timer.empty ops).2.timer.map (fun e => e.expire)) := by
  have h0 : oneShotRel HeapTimer.empty Timer.empty := by
    refine ⟨⟨by simp [HeapTimer.empty], by simp [HeapTimer.empty]⟩, ?_, by simp [HeapTimer.empty],
      ⟨by simp [Timer.empty], by simp [Timer.empty]⟩, ?_, by simp [Timer.empty],
      by simp [HeapTimer.empty, Timer.empty]⟩
    · intro i hi; simp [HeapTimer.empty] at hi
    · simp [Timer.isSet, Timer.empty]
  obtain ⟨h1, h2⟩ := oneShotRel_run ops _ _ h0
  exact ⟨h1, h2.2.2.2.2.2.2⟩

/-! ## Index safety of the heap engine -/

namespace HeapTimer

theorem getC_of_lt (t : List TimerNode) (i : Nat) (h : i < t.length) :
    getC t i = some (nodeAt t i) := by
  simp [getC, nodeAt, List.getD_eq_getElem?_getD, List.getElem?_eq_getElem h]

theorem swapAtC_eq (t : List TimerNode) (a b : Nat) (ha : a < t.length) (hb : b < t.length) :
    swapAtC t a b = some (swapAt t a b) := by
  simp [swapAtC, swapAt, getC_of_lt t a ha, getC_of_lt t b hb, setC, ha, hb]

theorem siftUpLoopC_eq : ∀ (fuel : Nat) (t : List TimerNode) (son : Nat), son < t.length →
    siftUpLoopC fuel t son = some (siftUpLoop fuel t son)
  | 0, _, _, _ => rfl
  | fuel + 1, t, son, h => by
    have hp : (son - 1) / 2 < t.length := by omega
    by_cases h0 : 0 < son
    · by_cases hc : (nodeAt t ((son - 1) / 2)).expire < (nodeAt t son).expire
      · simp [siftUpLoopC, siftUpLoop, h0, hc, getC_of_lt t _ hp, getC_of_lt t _ h]
      · simp only [siftUpLoopC, siftUpLoop, h0, hc, getC_of_lt t _ hp, getC_of_lt t _ h,
          swapAtC_eq t _ _ h hp, if_true, if_false, Option.some_bind]
        exact siftUpLoopC_eq fuel _ _ (by rw [swapAt_length]; exact hp)
    · simp [siftUpLoopC, siftUpLoop, h0]

theorem siftDownLoopC_eq : ∀ (fuel : Nat) (t : List TimerNode) (parent son e : Nat),
    parent < t.length → e < t.length →
    siftDownLoopC fuel t parent son e = some (siftDownLoop fuel t parent son e)
  | 0, _, _, _, _, _, _ => rfl
  | fuel + 1, t, parent, son, e, hp, he => by
    unfold siftDownLoopC siftDownLoop
    by_cases hs : son ≤ e
    · have hsl : son < t.length := by omega
      simp only [hs, if_true]
      have key : ∀ son1, son1 ≤ e →
          ((getC t son1).bind fun s => (getC t parent).bind fun p =>
            if s.expire > p.expire then some t
            else (swapAtC t parent son1).bind fun t1 =>
              siftDownLoopC fuel t1 son1 (2 * son1 + 1) e)
          = some (if (nodeAt t son1).expire > (nodeAt t parent).expire then t
              else siftDownLoop fuel (swapAt t parent son1) son1 (2 * son1 + 1) e) := by
        intro son1 h1
        have hs1 : son1 < t.length := by omega
        simp only [getC_of_lt t _ hs1, getC_of_lt t _ hp, Option.some_bind,
          swapAtC_eq t _ _ hp hs1]
        split_ifs
        · rfl
        · exact siftDownLoopC_eq fuel _ _ _ e (by rw [swapAt_length]; exact hs1)
            (by rw [swapAt_length]; exact he)
      by_cases hlt : son < e
      · have hs2 : son + 1 < t.length := by omega
        simp only [hlt, if_true, true_and, getC_of_lt t _ hs2, getC_of_lt t _ hsl,
          Option.some_bind]
        by_cases hc : (nodeAt t (son + 1)).expire < (nodeAt t son).expire
        · simp only [hc, if_true]
          exact key _ (by omega)
        · simp only [hc, if_false]
          exact key _ hs
      · simp only [hlt, if_false, false_and, Option.some_bind]
        exact key _ hs
    · simp [hs]

theorem siftDownC_eq (t : List TimerNode) (start e : Nat) (hs : start < t.length)
    (he : e < t.length) : siftDownC t start e = some (siftDown t start e) :=
  siftDownLoopC_eq _ t start _ e hs he

theorem lastIndexC_eq (t : List TimerNode) (h : 0 < t.length) :
    lastIndexC t = some (t.length - 1) := by
  have : ¬ t.length = 0 := by omega
  simp [lastIndexC, this]

theorem delTimerLoopC_eq (timer_id : Int) : ∀ (fuel : Nat) (t : List TimerNode) (i : Nat),
    delTimerLoopC fuel t i timer_id = some (delTimerLoop fuel t i timer_id)
  | 0, _, _ => rfl
  | fuel + 1, t, i => by
    unfold delTimerLoopC delTimerLoop
    by_cases hi : i < t.length
    · have hl : t.length - 1 < t.length := by omega
      by_cases hm : (nodeAt t i).id = timer_id
      · have hlen : (siftDown (t.set i (nodeAt t (t.length - 1))) i
            ((t.set i (nodeAt t (t.length - 1))).length - 1)).length ≠ 0 := by
          simp only [siftDown, siftDownLoop_length, List.length_set]
          omega
        have hl1 : (t.set i (nodeAt t (t.length - 1))).length = t.length := by simp
        have hsd := siftDownC_eq (t.set i (nodeAt t (t.length - 1))) i
          ((t.set i (nodeAt t (t.length - 1))).length - 1) (by rw [hl1]; exact hi)
          (by rw [hl1]; exact hl)
        simp only [hi, hm, if_true, getC_of_lt t i hi, Option.some_bind,
          lastIndexC_eq t (by omega), getC_of_lt t _ hl, setC,
          lastIndexC_eq (t.set i (nodeAt t (t.length - 1))) (by rw [hl1]; omega),
          hsd, eraseLastC, hlen, if_false]
        exact delTimerLoopC_eq timer_id fuel _ _
      · simp only [hi, hm, if_true, if_false, getC_of_lt t i hi, Option.some_bind]
        exact delTimerLoopC_eq timer_id fuel _ _
    · simp [hi]

/-- C19: for every heap-engine store (the empty and the one-element store included) and every
argument, `addTimer`, `delTimer`, `checkTimer` and `timeToSleep` with checked accesses return a
result, the one of the operation itself: every vector element read or written by the operation
and by its `siftUp` and `siftDown` calls has an index in `[0, size)` at the moment of the
access, `size() - 1` is never taken of an empty vector and no `erase` hits an empty vector. -/
theorem heap_operations_index_safe (s : HeapTimer) :
    (∀ (now msec : Int) (func : Callback) (r : Int),
      addTimerC s now msec func r = some (addTimer s now msec func r)) ∧
    (∀ timer_id : Int, delTimerC s timer_id = some (delTimer s timer_id)) ∧
    (∀ now : Int, checkTimerC s now = some (checkTimer s now)) ∧
    (∀ now : Int, timeToSleepC s now = some (timeToSleep s now)) := by
  refine ⟨?_, ?_, ?_, ?_⟩
  · intro now msec func r
    simp only [addTimerC, addTimer, lastIndexC_eq _ (show 0 < (s.timer ++ [(⟨⟨now + msec,
      s.g_id⟩, func, r, msec⟩ : TimerNode)]).length by simp), Option.some_bind, siftUpC, siftUp,
      siftUpLoopC_eq _ _ _ (show (s.timer ++ [(⟨⟨now + msec, s.g_id⟩, func, r, msec⟩ :
        TimerNode)]).length - 1 < (s.timer ++ [(⟨⟨now + msec, s.g_id⟩, func, r, msec⟩ :
        TimerNode)]).length by simp)]
  · intro timer_id
    simp only [delTimerC, delTimer, delTimerLoopC_eq, Option.some_bind]
  · intro now
    obtain ⟨timer, g⟩ := s
    cases timer with
    | nil => rfl
    | cons root rest =>
      by_cases hdue : root.expire ≤ now
      · by_cases hr : root.«repeat» - 1 = 0
        · simp only [checkTimerC, checkTimer, hdue, if_true, delTimerC, delTimer,
            delTimerLoopC_eq, Option.some_bind]
          rw [if_pos hr, if_pos hr]
        · simp only [checkTimerC, checkTimer, hdue, hr, if_true, if_false,
            lastIndexC_eq _ (show 0 < (_ :: rest).length by simp), Option.some_bind,
            siftDownC_eq _ 0 _ (show 0 < (_ :: rest).length by simp)
              (show (_ :: rest).length - 1 < (_ :: rest).length by simp)]
      · simp [checkTimerC, checkTimer, hdue]
  · intro now
    obtain ⟨timer, g⟩ := s
    cases timer <;> rfl

end HeapTimer

/-! ## The drain loop terminates -/

namespace HeapTimer

end HeapTimer

/-! ## Concrete runs -/

/-- C14 on a run of the ordered-set engine: two `addTimer` calls (repeats 3 and 1), a
`checkTimer` at tick 1000 that fires id 0 and re-adds it under a new id, a `delTimer` of id 1 and
one more `addTimer`: the ids handed out are 0, 1, 2, 3 and the live ids are 2 and 3. -/
theorem ids_unique_and_increasing_witness :
    Timer.runIssued Timer.empty
      [.add 0 1000 (Callback.user 0) 3, .add 0 1000 (Callback.user 1) 1, .check 1000 1000,
       .del ⟨1000, 1⟩, .add 1000 5000 (Callback.user 2) 1] = [0, 1, 2, 3] ∧
    (Timer.run Timer.empty
      [.add 0 1000 (Callback.user 0) 3, .add 0 1000 (Callback.user 1) 1, .check 1000 1000,
       .del ⟨1000, 1⟩, .add 1000 5000 (Callback.user 2) 1]).timer.map (fun e => e.id)
      = [2, 3] ∧
    (Timer.runIssued Timer.empty
      [.add 0 1000 (Callback.user 0) 3, .add 0 1000 (Callback.user 1) 1, .check 1000 1000,
       .del ⟨1000, 1⟩, .add 1000 5000 (Callback.user 2) 1]).Pairwise (· < ·) :=
  ⟨by decide, by decide, (ids_unique_and_increasing.2 _).2.1⟩

/-- C16 on a run: timers with delays 1000 and 500 added at tick 0, `timeToSleep` at tick 0,
two `checkTimer` calls and a `timeToSleep` at tick 600. Both engines sleep 500, fire the entry
with expire 500, then return false and sleep 400. -/
theorem engines_agree_on_one_shot_timers_witness :
    (HeapTimer.runObs HeapTimer.empty
      [.add 0 1000 (Callback.user 0), .add 0 500 (Callback.user 1), .sleep 0, .check 600 600,
       .check 600 600, .sleep 600]).1
      = [Obs.added, Obs.added, Obs.slept 500, Obs.checked true [500], Obs.checked false [],
         Obs.slept 400] ∧
    (HeapTimer.runObs HeapTimer.empty
      [.add 0 1000 (Callback.user 0), .add 0 500 (Callback.user 1), .sleep 0, .check 600 600,
       .check 600 600, .sleep 600]).1
      = (Timer.runObs Timer.empty
      [.add 0 1000 (Callback.user 0), .add 0 500 (Callback.user 1), .sleep 0, .check 600 600,
       .check 600 600, .sleep 600]).1 :=
  ⟨by decide, (engines_agree_on_one_shot_timers _).1⟩

/-! ## The fixed-width layer -/

theorem wrap64_of_range (x : Int) (h1 : -9223372036854775808 ≤ x)
    (h2 : x < 9223372036854775808) : wrap64 x = x := by
  unfold wrap64; omega

theorem wrap32_of_range (x : Int) (h1 : -2147483648 ≤ x) (h2 : x < 2147483648) :
    wrap32 x = x := by
  unfold wrap32; omega

/-- A wrapped value is a 64-bit value. -/
theorem wrap64_range (x : Int) :
    -9223372036854775808 ≤ wrap64 x ∧ wrap64 x < 9223372036854775808 := by
  unfold wrap64; omega

/-- Wrapping a non-negative value never makes it larger. -/
theorem wrap64_le_of_nonneg (x : Int) (h : 0 ≤ x) : wrap64 x ≤ x := by
  unfold wrap64; omega

namespace HeapTimer

/-- The two layers of `addTimer` agree when the expire and the next counter value are 64-bit
values. -/
theorem addTimerW_eq_addTimer (s : HeapTimer) (now msec : Int) (func : Callback) (r : Int)
    (h1 : -9223372036854775808 ≤ now + msec) (h2 : now + msec < 9223372036854775808)
    (h3 : -9223372036854775808 ≤ s.g_id + 1) (h4 : s.g_id + 1 < 9223372036854775808) :
    addTimerW s now msec func r = addTimer s now msec func r := by
  simp only [addTimerW, addTimer, wrap64_of_range _ h1 h2, wrap64_of_range _ h3 h4]

/-- The two layers of `checkTimer` agree when the decremented repeat of the first entry is a
32-bit value and its advanced expire a 64-bit value. -/
theorem checkTimerW_eq_checkTimer (s : HeapTimer) (now : Int)
    (h : ∀ root ∈ s.timer.head?,
      -2147483648 ≤ root.«repeat» - 1 ∧ root.«repeat» - 1 < 2147483648 ∧
      -9223372036854775808 ≤ root.expire + root.msec ∧
      root.expire + root.msec < 9223372036854775808) :
    checkTimerW s now = checkTimer s now := by
  obtain ⟨timer, g⟩ := s
  cases timer with
  | nil => rfl
  | cons root rest =>
    obtain ⟨h1, h2, h3, h4⟩ := h root (by simp)
    simp only [checkTimerW, checkTimer, wrap32_of_range _ h1 h2, wrap64_of_range _ h3 h4]

/-- The two layers of the heap engine's `timeToSleep` agree when the difference is a 64-bit
value. -/
theorem timeToSleepW_eq_timeToSleep (s : HeapTimer) (now : Int)
    (h : ∀ root ∈ s.timer.head?,
      -9223372036854775808 ≤ root.expire - now ∧ root.expire - now < 9223372036854775808) :
    timeToSleepW s now = timeToSleep s now := by
  obtain ⟨timer, g⟩ := s
  cases timer with
  | nil => rfl
  | cons root rest =>
    obtain ⟨h1, h2⟩ := h root (by simp)
    simp only [timeToSleepW, timeToSleep, wrap64_of_range _ h1 h2]

end HeapTimer

/-- The two layers of the ordered-set engine's `timeToSleep` agree when the difference is a
64-bit value. -/
theorem Timer.set_timeToSleepW_eq_timeToSleep (s : Timer) (now : Int)
    (h : ∀ first ∈ s.timer.head?,
      -9223372036854775808 ≤ first.expire - now ∧ first.expire - now < 9223372036854775808) :
    Timer.timeToSleepW s now = Timer.timeToSleep s now := by
  obtain ⟨timer, g⟩ := s
  cases timer with
  | nil => rfl
  | cons first rest =>
    obtain ⟨h1, h2⟩ := h first (by simp)
    simp only [Timer.timeToSleepW, Timer.timeToSleep, wrap64_of_range _ h1 h2]

namespace HeapTimer

/-- The fixed-width `addTimer` returns the old counter value as id and adds, up to order, exactly
the new node, whose expire is the wrapped sum. -/
theorem addTimerW_perm (s : HeapTimer) (now msec : Int) (func : Callback) (r : Int) :
    (addTimerW s now msec func r).1 = s.g_id ∧
    (addTimerW s now msec func r).2.g_id = wrap64 (s.g_id + 1) ∧
    (addTimerW s now msec func r).2.timer.Perm
      (s.timer ++ [⟨⟨wrap64 (now + msec), s.g_id⟩, func, r, msec⟩]) := by
  refine ⟨rfl, rfl, ?_⟩
  simp only [addTimerW]
  exact siftUp_perm _ _ (by simp)

/-- C13 fails on the code: the expire is a 64-bit sum. On the empty store, `addTimer` at tick 1
with delay 9223372036854775807 (the largest `time_t`) stores the expire -9223372036854775808;
no entry has the expire 1 + 9223372036854775807. -/
theorem addTimerW_expire_wraps :
    (addTimerW empty 1 9223372036854775807 (Callback.user 0) 1).2.timer
      = [⟨⟨-9223372036854775808, 0⟩, Callback.user 0, 1, 9223372036854775807⟩] ∧
    ¬ ∃ e ∈ (addTimerW empty 1 9223372036854775807 (Callback.user 0) 1).2.timer,
        e.expire = 1 + 9223372036854775807 := by
  decide

/-- C13 as amended: for every store, delay, repeat, callback and clock reading, the heap
engine's `addTimer` returns the old counter value as id `h` and leaves, as a multiset, the old
entries plus exactly one new entry with id `h`, period `msec`, the given repeat and callback,
and as expire the 64-bit sum of `now` and `msec`: the size grows by one and every node occurs as
often as before, the new node once more. When `now + msec` is a 64-bit value the expire is
`now + msec`. The counter advances by one (as a 64-bit value). -/
theorem addTimerW_postcondition (s : HeapTimer) (now msec : Int) (func : Callback) (r : Int) :
    (addTimerW s now msec func r).1 = s.g_id ∧
    (addTimerW s now msec func r).2.g_id = wrap64 (s.g_id + 1) ∧
    (addTimerW s now msec func r).2.timer.Perm
      (s.timer ++ [⟨⟨wrap64 (now + msec), (addTimerW s now msec func r).1⟩, func, r, msec⟩]) ∧
    (addTimerW s now msec func r).2.timer.length = s.timer.length + 1 ∧
    (∀ x : TimerNode, (addTimerW s now msec func r).2.timer.count x
      = s.timer.count x + if x = ⟨⟨wrap64 (now + msec), s.g_id⟩, func, r, msec⟩ then 1 else 0) ∧
    (∀ x ∈ s.timer, x ∈ (addTimerW s now msec func r).2.timer) ∧
    (-9223372036854775808 ≤ now + msec → now + msec < 9223372036854775808 →
      (addTimerW s now msec func r).2.timer.Perm
        (s.timer ++ [⟨⟨now + msec, s.g_id⟩, func, r, msec⟩])) ∧
    (-9223372036854775808 ≤ s.g_id + 1 → s.g_id + 1 < 9223372036854775808 →
      (addTimerW s now msec func r).2.g_id = s.g_id + 1) := by
  obtain ⟨h1, h2, h3⟩ := addTimerW_perm s now msec func r
  refine ⟨h1, h2, by rw [h1]; exact h3, by rw [h3.length_eq]; simp, ?_, ?_, ?_, ?_⟩
  · intro x
    rw [h3.count_eq, List.count_append, List.count_singleton]
    by_cases hx : x = ⟨⟨wrap64 (now + msec), s.g_id⟩, func, r, msec⟩
    · simp [hx]
    · have : ¬ ((⟨⟨wrap64 (now + msec), s.g_id⟩, func, r, msec⟩ : TimerNode) = x) :=
        fun h => hx h.symm
      simp [hx, this]
  · intro x hx
    exact h3.mem_iff.mpr (List.mem_append_left _ hx)
  · intro hlo hhi
    rw [wrap64_of_range _ hlo hhi] at h3
    exact h3
  · intro hlo hhi
    rw [h2, wrap64_of_range _ hlo hhi]

/-- C13 as amended, at the store of `main`: the sixth `addTimer` of `main` (delay 10000, at
tick 0) returns id 5 and adds the entry with expire 0 + 10000 to the five entries. -/
theorem addTimerW_postcondition_witness :
    (addTimerW mainStore 0 10000 (Callback.user 5) 1).1 = 5 ∧
    (addTimerW mainStore 0 10000 (Callback.user 5) 1).2.timer.length = 5 + 1 ∧
    (addTimerW mainStore 0 10000 (Callback.user 5) 1).2.timer.Perm
      (mainStore.timer ++ [⟨⟨0 + 10000, 5⟩, Callback.user 5, 1, 10000⟩]) :=
  have h := addTimerW_postcondition mainStore 0 10000 (Callback.user 5) 1
  ⟨h.1, h.2.2.2.1, h.2.2.2.2.2.2.1 (by decide) (by decide)⟩

/-- C6 fails on the code: the repeat is a 32-bit `int`. A timer added at tick 0 with delay 1000
and repeat -2147483648 (the smallest `int`) and fired at tick 1000 is rescheduled with repeat
2147483647, not the old repeat minus 1. -/
theorem checkTimerW_repeat_wraps :
    (addTimerW empty 0 1000 (Callback.user 0) (-2147483648)).2
      = ⟨[⟨⟨1000, 0⟩, Callback.user 0, -2147483648, 1000⟩], 1⟩ ∧
    (checkTimerW ⟨[⟨⟨1000, 0⟩, Callback.user 0, -2147483648, 1000⟩], 1⟩ 1000).ret = true ∧
    (checkTimerW ⟨[⟨⟨1000, 0⟩, Callback.user 0, -2147483648, 1000⟩], 1⟩ 1000).store.timer
      = [⟨⟨2000, 0⟩, Callback.user 0, 2147483647, 1000⟩] ∧
    ¬ ∃ e ∈ (checkTimerW ⟨[⟨⟨1000, 0⟩, Callback.user 0, -2147483648, 1000⟩], 1⟩
        1000).store.timer, e.«repeat» = -2147483648 - 1 := by
  decide

/-- C6 as amended: when `checkTimer` fires a root whose repeat (an `int`) is not 1, it returns
true after one call of the root's callback; the store keeps its size and id counter and is, as a
multiset, the old one with the root replaced by the same node with the 32-bit value of repeat
minus 1 and the 64-bit value of expire plus period (`msec`), id, period and callback unchanged.
The new repeat is the old repeat minus 1 unless the old repeat is the smallest `int`, and the
new expire is the old expire plus the period when that sum is a 64-bit value. With pairwise
distinct ids that node is the only one with the fired id and every other entry is present
exactly once, unchanged. -/
theorem checkTimerW_reschedule_step (s : HeapTimer) (now : Int) (root : TimerNode)
    (rest : List TimerNode) (hs : s.timer = root :: rest) (hdue : root.expire ≤ now)
    (hr : root.«repeat» ≠ 1)
    (hint : -2147483648 ≤ root.«repeat» ∧ root.«repeat» ≤ 2147483647) :
    (checkTimerW s now).ret = true ∧
    (checkTimerW s now).calls = [root] ∧
    (checkTimerW s now).store.timer.Perm
      (⟨⟨wrap64 (root.expire + root.msec), root.id⟩, root.func, wrap32 (root.«repeat» - 1),
        root.msec⟩ :: rest) ∧
    (checkTimerW s now).store.timer.length = s.timer.length ∧
    (checkTimerW s now).store.g_id = s.g_id ∧
    (-2147483648 < root.«repeat» → wrap32 (root.«repeat» - 1) = root.«repeat» - 1) ∧
    (-9223372036854775808 ≤ root.expire + root.msec →
      root.expire + root.msec < 9223372036854775808 →
      wrap64 (root.expire + root.msec) = root.expire + root.msec) ∧
    ((s.timer.map (fun x => x.id)).Nodup →
      (checkTimerW s now).store.timer.filter (fun x => decide (x.id = root.id))
        = [⟨⟨wrap64 (root.expire + root.msec), root.id⟩, root.func,
            wrap32 (root.«repeat» - 1), root.msec⟩] ∧
      ∀ x ∈ rest, (checkTimerW s now).store.timer.count x = 1) := by
  have hr0 : ¬ (wrap32 (root.«repeat» - 1) = 0) := by
    unfold wrap32; omega
  have hperm : (checkTimerW s now).store.timer.Perm
      (⟨⟨wrap64 (root.expire + root.msec), root.id⟩, root.func, wrap32 (root.«repeat» - 1),
        root.msec⟩ :: rest) := by
    simp only [checkTimerW, hs, hdue, hr0, if_true, if_false]
    exact siftDown_perm _ 0 _ (by simp) (by simp)
  refine ⟨?_, ?_, hperm, ?_, ?_, ?_, ?_, ?_⟩
  · simp [checkTimerW, hs, hdue, hr0]
  · simp [checkTimerW, hs, hdue, hr0]
  · rw [hperm.length_eq, hs]; simp
  · simp [checkTimerW, hs, hdue, hr0]
  · intro h
    exact wrap32_of_range _ (by omega) (by omega)
  · intro h1 h2
    exact wrap64_of_range _ h1 h2
  · intro hn
    rw [hs] at hn
    simp only [List.map_cons, List.nodup_cons, List.mem_map, not_exists, not_and] at hn
    constructor
    · have h1 := hperm.filter (fun x => decide (x.id = root.id))
      have h2 : rest.filter (fun x => decide (x.id = root.id)) = [] :=
        List.filter_eq_nil_iff.mpr (by intro x hx; simpa using hn.1 x hx)
      rw [List.filter_cons_of_pos (by simp), h2] at h1
      exact List.perm_singleton.mp h1
    · intro x hx
      rw [hperm.count_eq, List.count_cons_of_ne (by
        intro hxe; exact hn.1 x hx (by rw [hxe]))]
      exact List.count_eq_one_of_mem (List.Nodup.of_map _ hn.2) hx

/-- C6 as amended, at the store of `main` (five entries) and tick 600: the root is the timer
with delay 500 and repeat 2 (id 4); after the firing the store holds five entries, the one with
id 4 has repeat 1 and expire 1000, and each of the four other entries is present once,
unchanged. -/
theorem checkTimerW_reschedule_step_witness :
    mainStore.timer
      = ⟨⟨500, 4⟩, Callback.user 4, 2, 500⟩ ::
        [⟨⟨1000, 0⟩, Callback.user 0, 1, 1000⟩, ⟨⟨3000, 2⟩, Callback.user 2, 1, 3000⟩,
         ⟨⟨5000, 3⟩, Callback.user 3, 1, 5000⟩, ⟨⟨2000, 1⟩, Callback.user 1, 2, 2000⟩] ∧
    (checkTimerW mainStore 600).ret = true ∧
    (checkTimerW mainStore 600).store.timer.length = mainStore.timer.length ∧
    (checkTimerW mainStore 600).store.timer.filter (fun x => decide (x.id = 4))
      = [⟨⟨wrap64 (500 + 500), 4⟩, Callback.user 4, wrap32 (2 - 1), 500⟩] ∧
    wrap32 (2 - 1) = 2 - 1 ∧ wrap64 (500 + 500) = 500 + 500 ∧
    (∀ x ∈ [(⟨⟨1000, 0⟩, Callback.user 0, 1, 1000⟩ : TimerNode),
          ⟨⟨3000, 2⟩, Callback.user 2, 1, 3000⟩, ⟨⟨5000, 3⟩, Callback.user 3, 1, 5000⟩,
          ⟨⟨2000, 1⟩, Callback.user 1, 2, 2000⟩],
      (checkTimerW mainStore 600).store.timer.count x = 1) :=
  have h := checkTimerW_reschedule_step mainStore 600 ⟨⟨500, 4⟩, Callback.user 4, 2, 500⟩
    [⟨⟨1000, 0⟩, Callback.user 0, 1, 1000⟩, ⟨⟨3000, 2⟩, Callback.user 2, 1, 3000⟩,
     ⟨⟨5000, 3⟩, Callback.user 3, 1, 5000⟩, ⟨⟨2000, 1⟩, Callback.user 1, 2, 2000⟩]
    (by decide) (by decide) (by decide) (by decide)
  ⟨by decide, h.1, h.2.2.2.1, (h.2.2.2.2.2.2.2 (by decide)).1, h.2.2.2.2.2.1 (by decide),
    h.2.2.2.2.2.2.1 (by decide) (by decide), (h.2.2.2.2.2.2.2 (by decide)).2⟩

end HeapTimer

/-- C3 fails on the code: the difference is a 64-bit value. A timer added to the empty heap store
at tick 100 with delay -9223372036854775808 has expire -9223372036854775708; the store is a
heap with that least expire, and `timeToSleep` at tick 200 returns 9223372036854775708 instead
of `max 0 (m - now)`, which is 0. The ordered-set engine returns the same on such an entry. -/
theorem timeToSleepW_difference_wraps :
    (HeapTimer.addTimerW HeapTimer.empty 100 (-9223372036854775808) (Callback.user 0) 1).2
      = ⟨[⟨⟨-9223372036854775708, 0⟩, Callback.user 0, 1, -9223372036854775808⟩], 1⟩ ∧
    HeapTimer.isHeap [⟨⟨-9223372036854775708, 0⟩, Callback.user 0, 1, -9223372036854775808⟩] ∧
    HeapTimer.timeToSleepW
      ⟨[⟨⟨-9223372036854775708, 0⟩, Callback.user 0, 1, -9223372036854775808⟩], 1⟩ 200
      = 9223372036854775708 ∧
    Timer.timeToSleepW ⟨[⟨⟨-9223372036854775708, 0⟩, Callback.user 0, 1⟩], 1⟩ 200
      = 9223372036854775708 ∧
    max (0 : Int) (-9223372036854775708 - 200) = 0 := by
  decide

/-- C3 as amended: `timeToSleep` returns 3000 on an empty store and otherwise `max 0 d`, where
`d` is the 64-bit value of `m - now` for the least expire `m` among the live entries, in the
heap engine for every vector with the min-heap property and in the ordered-set engine for every
ascending element list. The result is never negative and never exceeds `m - now` when
`m ≥ now`; when `m - now` is a 64-bit value the result is `max 0 (m - now)`. After adding the
delays 1000, 2000, 3000, 5000 (repeats 1, 2, 1, 1) at one tick `t` with `t` and `t + 5000`
64-bit values to the empty heap store, `timeToSleep` at `t` is 1000. -/
theorem timeToSleepW_value :
    (∀ (s : HeapTimer) (now : Int),
      (s.timer = [] → HeapTimer.timeToSleepW s now = 3000) ∧
      0 ≤ HeapTimer.timeToSleepW s now ∧
      (s.timer ≠ [] → HeapTimer.isHeap s.timer →
        ∃ m, HeapTimer.isLeastExpire s.timer m ∧
          HeapTimer.timeToSleepW s now = max 0 (wrap64 (m - now)) ∧
          (now ≤ m → HeapTimer.timeToSleepW s now ≤ m - now) ∧
          (-9223372036854775808 ≤ m - now → m - now < 9223372036854775808 →
            HeapTimer.timeToSleepW s now = max 0 (m - now)))) ∧
    (∀ (s : Timer) (now : Int),
      (s.timer = [] → Timer.timeToSleepW s now = 3000) ∧
      0 ≤ Timer.timeToSleepW s now ∧
      (s.timer ≠ [] → Timer.isSet s.timer →
        ∃ m, Timer.isLeastExpire s.timer m ∧
          Timer.timeToSleepW s now = max 0 (wrap64 (m - now)) ∧
          (now ≤ m → Timer.timeToSleepW s now ≤ m - now) ∧
          (-9223372036854775808 ≤ m - now → m - now < 9223372036854775808 →
            Timer.timeToSleepW s now = max 0 (m - now)))) ∧
    (∀ (t : Int) (f0 f1 f2 f3 : Callback),
      -9223372036854775808 ≤ t → t + 5000 < 9223372036854775808 →
      HeapTimer.timeToSleepW (HeapTimer.runW HeapTimer.empty
        [.add t 1000 f0 1, .add t 2000 f1 2, .add t 3000 f2 1, .add t 5000 f3 1]) t = 1000) := by
  have hmax : ∀ (e now : Int), (if wrap64 (e - now) > 0 then wrap64 (e - now) else 0)
      = max 0 (wrap64 (e - now)) := by
    intro e now
    split_ifs with h
    · rw [max_eq_right (by omega)]
    · rw [max_eq_left (by omega)]
  have hle : ∀ (e now : Int), now ≤ e →
      (if wrap64 (e - now) > 0 then wrap64 (e - now) else 0) ≤ e - now := by
    intro e now h
    have := wrap64_le_of_nonneg (e - now) (by omega)
    split_ifs <;> omega
  refine ⟨?_, ?_, ?_⟩
  · intro s now
    refine ⟨?_, ?_, ?_⟩
    · intro h; simp [HeapTimer.timeToSleepW, h]
    · unfold HeapTimer.timeToSleepW
      split
      · omega
      · simp only; split_ifs <;> omega
    · intro hne hh
      obtain ⟨timer, g⟩ := s
      cases timer with
      | nil => exact absurd rfl hne
      | cons root rest =>
        refine ⟨root.expire, ⟨⟨root, by simp, rfl⟩, ?_⟩, ?_, ?_, ?_⟩
        · intro e he
          obtain ⟨i, hi, rfl⟩ := List.getElem_of_mem he
          have := HeapTimer.isHeap_root_le (root :: rest) hh i hi
          rw [HeapTimer.nodeAt_of_lt _ i hi] at this
          simpa [HeapTimer.nodeAt] using this
        · simp only [HeapTimer.timeToSleepW]
          exact hmax _ _
        · intro hm
          simp only [HeapTimer.timeToSleepW]
          exact hle _ _ hm
        · intro h1 h2
          simp only [HeapTimer.timeToSleepW]
          rw [hmax, wrap64_of_range _ h1 h2]
  · intro s now
    refine ⟨?_, ?_, ?_⟩
    · intro h; simp [Timer.timeToSleepW, h]
    · unfold Timer.timeToSleepW
      split
      · omega
      · simp only; split_ifs <;> omega
    · intro hne hh
      obtain ⟨timer, g⟩ := s
      cases timer with
      | nil => exact absurd rfl hne
      | cons first rest =>
        refine ⟨first.expire, ⟨⟨first, by simp, rfl⟩, ?_⟩, ?_, ?_, ?_⟩
        · intro e he
          rcases List.mem_cons.mp he with h | h
          · rw [h]
          · exact operatorLt_expire_le _ _ ((List.pairwise_cons.mp hh).1 e h)
        · simp only [Timer.timeToSleepW]
          exact hmax _ _
        · intro hm
          simp only [Timer.timeToSleepW]
          exact hle _ _ hm
        · intro h1 h2
          simp only [Timer.timeToSleepW]
          rw [hmax, wrap64_of_range _ h1 h2]
  · intro t f0 f1 f2 f3 h1 h2
    have w1 := wrap64_of_range (t + 1000) (by omega) (by omega)
    have w2 := wrap64_of_range (t + 2000) (by omega) (by omega)
    have w3 := wrap64_of_range (t + 3000) (by omega) (by omega)
    have w5 := wrap64_of_range (t + 5000) (by omega) (by omega)
    have w0 : wrap64 1000 = 1000 := by decide
    simp [HeapTimer.runW, HeapTimer.stepW, HeapTimer.addTimerW, HeapTimer.empty,
      HeapTimer.siftUp, HeapTimer.siftUpLoop, HeapTimer.nodeAt, HeapTimer.swapAt,
      HeapTimer.timeToSleepW, w1, w2, w3, w5, w0]

/-- C3 as amended, at the store of `main` of HeapTimer.cpp (least expire 500, read at tick 100)
and at a two-element ordered set (least expire 700, read at tick 900). -/
theorem timeToSleepW_value_witness :
    HeapTimer.mainStore.timer ≠ [] ∧ HeapTimer.isHeap HeapTimer.mainStore.timer ∧
    HeapTimer.isLeastExpire HeapTimer.mainStore.timer 500 ∧
    HeapTimer.timeToSleepW HeapTimer.mainStore 100 = 400 ∧
    Timer.isSet [⟨⟨700, 1⟩, Callback.user 1, 1⟩, ⟨⟨800, 0⟩, Callback.user 0, 1⟩] ∧
    Timer.timeToSleepW ⟨[⟨⟨700, 1⟩, Callback.user 1, 1⟩, ⟨⟨800, 0⟩, Callback.user 0, 1⟩], 2⟩ 900
      = 0 ∧
    (∃ m, HeapTimer.isLeastExpire HeapTimer.mainStore.timer m ∧
      HeapTimer.timeToSleepW HeapTimer.mainStore 100 = max 0 (wrap64 (m - 100)) ∧
      (100 ≤ m → HeapTimer.timeToSleepW HeapTimer.mainStore 100 ≤ m - 100) ∧
      (-9223372036854775808 ≤ m - 100 → m - 100 < 9223372036854775808 →
        HeapTimer.timeToSleepW HeapTimer.mainStore 100 = max 0 (m - 100))) ∧
    (∃ m, Timer.isLeastExpire [⟨⟨700, 1⟩, Callback.user 1, 1⟩, ⟨⟨800, 0⟩, Callback.user 0, 1⟩] m ∧
      Timer.timeToSleepW ⟨[⟨⟨700, 1⟩, Callback.user 1, 1⟩, ⟨⟨800, 0⟩, Callback.user 0, 1⟩], 2⟩ 900
        = max 0 (wrap64 (m - 900)) ∧
      (900 ≤ m → Timer.timeToSleepW
        ⟨[⟨⟨700, 1⟩, Callback.user 1, 1⟩, ⟨⟨800, 0⟩, Callback.user 0, 1⟩], 2⟩ 900 ≤ m - 900) ∧
      (-9223372036854775808 ≤ m - 900 → m - 900 < 9223372036854775808 →
        Timer.timeToSleepW
          ⟨[⟨⟨700, 1⟩, Callback.user 1, 1⟩, ⟨⟨800, 0⟩, Callback.user 0, 1⟩], 2⟩ 900
            = max 0 (m - 900))) ∧
    HeapTimer.timeToSleepW (HeapTimer.runW HeapTimer.empty
      [.add 7 1000 (Callback.user 0) 1, .add 7 2000 (Callback.user 1) 2,
       .add 7 3000 (Callback.user 2) 1, .add 7 5000 (Callback.user 3) 1]) 7 = 1000 :=
  ⟨by decide, by decide,
   ⟨⟨⟨⟨500, 4⟩, Callback.user 4, 2, 500⟩, by decide, rfl⟩, by decide⟩,
   by decide, by decide, by decide,
   (timeToSleepW_value.1 HeapTimer.mainStore 100).2.2 (by decide) (by decide),
   (timeToSleepW_value.2.1 ⟨[⟨⟨700, 1⟩, Callback.user 1, 1⟩, ⟨⟨800, 0⟩, Callback.user 0, 1⟩], 2⟩
     900).2.2 (by decide) (by decide),
   timeToSleepW_value.2.2 7 (Callback.user 0) (Callback.user 1) (Callback.user 2)
     (Callback.user 3) (by decide) (by decide)⟩
